import Mathlib

/-!
Verification development for the abi-coder repository (src/lib/decoder.js and
src/lib/utils.js): a shallow embedding of the decoder and signature utilities,
together with theorems settling the frozen claims about them.

Modelling conventions:
* a Node `Buffer` is a `List (Fin 256)` of bytes;
* JavaScript `BigInt` values are `Nat`/`Int`;
* fallible code returns `Except JsErr`; each `throw` site in the source has a
  structured `JsErr` constructor;
* `Buffer.slice` clamps to the available bytes (Node semantics), while
  `readUInt32BE`/`readUInt8` throw a bounds error when the read does not fit;
* `value.toString()` on a BigInt is modelled by `natToDecString`/`intToDecString`
  and `Number(str)` on the resulting decimal string by `parseDecDigits`
  (exact; double rounding above 2^53 is outside the modelled range);
* recursion over type strings uses an explicit fuel argument; every call site
  passes `typeStr.length + 1`, which is sufficient because the recursion always
  moves to a strictly shorter type string.
-/

set_option maxRecDepth 10000

namespace Abi

/-- Bytes of a Node buffer. -/
abbrev JByte := Fin 256

/-- A Node `Buffer` is a list of bytes. -/
abbrev JBuffer := List JByte

/-- Decoded JavaScript values returned by the decoder: strings (decimal numbers,
hex strings, text), booleans, arrays, records, and the `null` sentinel used by
`decodeParameters` for empty input. -/
inductive Value where
  | vstr (s : String)
  | vbool (b : Bool)
  | varr (vs : List Value)
  | vobj (fields : List (String × Value))
  | vnull
deriving Repr

/-- Structured stand-ins for the exceptions thrown by the source (and by the
Node builtins it calls). -/
inductive JsErr where
  | valueTooLarge (bits : Nat) (value : Nat)
  | valueOutOfRange (bits : Nat) (value : Int)
  | unsupportedType (t : String)
  | invalidTupleFormat (t : String)
  | outOfRangeAccess
  | emptyBigIntLiteral
  | fuelExhausted
deriving Repr

/-- Result record of one decode step, mirroring the `{ value, nextOffset }`
objects of the source. -/
structure DRes where
  value : Value
  nextOffset : Nat
deriving Repr

/-- Big-endian unsigned interpretation of a byte list. -/
def bytesToNat (l : JBuffer) : Nat :=
  l.foldl (fun a b => a * 256 + b.val) 0

/-- Model of `buffer.slice(s, e)`: Node clamps to the available bytes. -/
def bslice (buf : JBuffer) (s e : Nat) : JBuffer :=
  (buf.drop s).take (e - s)

/-- Model of `buffer.readUInt32BE(off)`: Node throws `ERR_OUT_OF_RANGE` when the
4-byte read does not fit in the buffer. -/
def readUInt32BE (buf : JBuffer) (off : Nat) : Except JsErr Nat :=
  if off + 4 ≤ buf.length then .ok (bytesToNat (bslice buf off (off + 4)))
  else .error .outOfRangeAccess

/-- Model of `buffer.readUInt8(off)`. -/
def readUInt8 (buf : JBuffer) (off : Nat) : Except JsErr Nat :=
  if off + 1 ≤ buf.length then .ok (bytesToNat (bslice buf off (off + 1)))
  else .error .outOfRangeAccess

/-- Decimal digit character for a value below ten. -/
def digitChar (n : Nat) : Char := Char.ofNat (48 + n)

/-- Fuel-driven core of decimal printing (the fuel strictly exceeds the value,
so it never runs out). -/
def natToDecCore : Nat → Nat → List Char
  | 0, _ => []
  | f + 1, n => if n < 10 then [digitChar n] else natToDecCore f (n / 10) ++ [digitChar (n % 10)]

/-- Model of `BigInt.prototype.toString` for nonnegative values. -/
def natToDecChars (n : Nat) : List Char := natToDecCore (n + 1) n

/-- Decimal rendering as a `String`. -/
def natToDecString (n : Nat) : String := String.mk (natToDecChars n)

/-- Model of `BigInt.prototype.toString` for signed values. -/
def intToDecString (i : Int) : String :=
  if i < 0 then String.mk ([ '-' ] ++ natToDecChars i.natAbs) else natToDecString i.toNat

/-- Parse a list of decimal digit characters into a `Nat` (used to model
JavaScript `Number(decimalString)` on the decoder's decimal strings). -/
def parseDecDigits (l : List Char) : Nat :=
  l.foldl (fun a c => a * 10 + (c.toNat - 48)) 0

/-- Model of `Number(value)` applied to the decoder's decimal-string values. -/
def jsNumberV : Value → Nat
  | .vstr s => parseDecDigits s.data
  | _ => 0

/-- Embedding of `Decoder.decodeUint` (decoder.js lines 96-120).  For
`bits ≤ 64` the source reads only the last 8 bytes of the word via two
`readUInt32BE` calls; otherwise it converts the full (clamped) 32-byte slice,
treating an empty hex string as zero.  The value is range-checked and returned
as a decimal string. -/
def decodeUint (buffer : JBuffer) (offset : Nat) (bits : Nat := 256) : Except JsErr DRes := do
  let slice := bslice buffer offset (offset + 32)
  let value ←
    if bits ≤ 64 then do
      let high ← readUInt32BE buffer (offset + 24)
      let low ← readUInt32BE buffer (offset + 28)
      pure (high * 2 ^ 32 + low)
    else
      pure (if slice.isEmpty then 0 else bytesToNat slice)
  if value > 2 ^ bits - 1 then
    .error (.valueTooLarge bits value)
  else
    .ok ⟨.vstr (natToDecString value), offset + 32⟩

/-- Embedding of `Decoder.decodeInt` (decoder.js lines 122-143).  The raw
256-bit word is reduced by `2 ^ bits` when it is at least `2 ^ (bits - 1)`
(note: the source uses `bits`, not 256, for the sign adjustment), then
range-checked against `[-2 ^ (bits - 1), 2 ^ (bits - 1) - 1]`.  An empty slice
makes the source evaluate `BigInt('0x')`, which throws. -/
def decodeInt (buffer : JBuffer) (offset : Nat) (bits : Nat := 256) : Except JsErr DRes := do
  let slice := bslice buffer offset (offset + 32)
  if slice.isEmpty then
    .error .emptyBigIntLiteral
  else
    let raw : Int := bytesToNat slice
    let value : Int := if raw ≥ 2 ^ (bits - 1) then raw - 2 ^ bits else raw
    if value < -(2 ^ (bits - 1) : Int) ∨ value > 2 ^ (bits - 1) - 1 then
      .error (.valueOutOfRange bits value)
    else
      .ok ⟨.vstr (intToDecString value), offset + 32⟩

/-- Test whether a character is one of the whitespace characters recognised by
JavaScript's `String.prototype.trim` (ASCII subset; the exotic Unicode space
characters do not occur in this development). -/
def jsIsWs (c : Char) : Bool :=
  c = ' ' ∨ c = '\t' ∨ c = '\n' ∨ c = '\r' ∨ c = Char.ofNat 11 ∨ c = Char.ofNat 12

/-- Model of `String.prototype.trim`: drop whitespace from both ends. -/
def jsTrim (l : List Char) : List Char :=
  ((l.dropWhile jsIsWs).reverse.dropWhile jsIsWs).reverse

/-- Split on runs of whitespace, dropping empty pieces: the model of
`str.split(/\s+/)` as the source applies it (always to a trimmed string). -/
def splitWsGo : List Char → List Char → List (List Char)
  | [], cur => if cur.isEmpty then [] else [cur.reverse]
  | c :: cs, cur =>
    if jsIsWs c then
      if cur.isEmpty then splitWsGo cs [] else cur.reverse :: splitWsGo cs []
    else splitWsGo cs (c :: cur)

/-- Model of `trimmed.split(/\s+/)`. -/
def splitWs (l : List Char) : List (List Char) := splitWsGo l []

/-- Does the character list contain the two-character substring consisting of
an opening and a closing square bracket?  This is the model of the source's
`typeStr.includes` check for a dynamic-array marker. -/
def hasSubPair : List Char → Bool
  | [] => false
  | [_] => false
  | a :: b :: rest => (a = '[' ∧ b = ']') || hasSubPair (b :: rest)

/-- Generic substring test, modelling `String.prototype.includes`. -/
def hasSubList (pat : List Char) : List Char → Bool
  | [] => pat.isEmpty
  | c :: cs => pat.isPrefixOf (c :: cs) || hasSubList pat cs

/-- Does the character list start with the word tuple? -/
def startsWithTuple : List Char → Bool
  | 't' :: 'u' :: 'p' :: 'l' :: 'e' :: _ => true
  | _ => false

/-- Does the character list start with the word uint? -/
def startsUint : List Char → Bool
  | 'u' :: 'i' :: 'n' :: 't' :: _ => true
  | _ => false

/-- Does the character list start with the word int? -/
def startsInt : List Char → Bool
  | 'i' :: 'n' :: 't' :: _ => true
  | _ => false

/-- Does the character list start with the word bytes? -/
def startsBytes : List Char → Bool
  | 'b' :: 'y' :: 't' :: 'e' :: 's' :: _ => true
  | _ => false

/-- Model of the regular-expression match against a tuple type string used at
decoder.js lines 255 and 367: it succeeds exactly when the string is the word
tuple followed by a parenthesised nonempty body ending the string, and returns
that body. -/
def matchTupleParen (s : String) : Option String :=
  match s.data with
  | 't' :: 'u' :: 'p' :: 'l' :: 'e' :: '(' :: rest =>
    match rest.getLast? with
    | some ')' => if rest.dropLast.isEmpty then none else some (String.mk rest.dropLast)
    | _ => none
  | _ => none

/-- Model of `parseInt` on the digit-led strings the decoder feeds it (widths,
sizes, array lengths); `none` stands for `NaN`. -/
def parseIntJs (l : List Char) : Option Nat :=
  let ds := l.takeWhile (fun c => c.isDigit)
  if ds.isEmpty then none else some (parseDecDigits ds)

/-- Model of the idiom `parseInt(x) || 256`: both `NaN` and 0 are falsy. -/
def jsBits (l : List Char) : Nat :=
  match parseIntJs l with
  | none => 256
  | some 0 => 256
  | some k => k

/-- One parsed tuple component: a type string and a field name. -/
structure Comp where
  type : String
  name : String
deriving Repr

/-- Finalisation step of `parseTupleComponents`: trim the accumulated chunk,
skip it when empty, otherwise split off an optional field name (defaulting to
a synthetic name derived from the running component count). -/
def ptcFinalize (cur : List Char) (comps : List Comp) : List Comp :=
  let t := jsTrim cur
  if t.isEmpty then comps
  else
    let parts := splitWs t
    let ty := parts.headD []
    let nm : String :=
      match parts.get? 1 with
      | some n => String.mk n
      | none => String.mk (("field").data ++ natToDecChars comps.length)
    comps ++ [⟨String.mk ty, nm⟩]

/-- Character loop of `Decoder.parseTupleComponents` (decoder.js lines
305-349): a single left-to-right pass tracking bracket depth; commas at depth
zero split components; a first space at depth zero merely flips the `inType`
flag (and is dropped), mirroring the source. -/
def ptcGo : List Char → Int → List Char → Bool → List Comp → List Comp
  | [], _, cur, _, comps => ptcFinalize cur comps
  | c :: cs, depth, cur, inType, comps =>
    if c = '(' ∨ c = '[' then ptcGo cs (depth + 1) (cur ++ [c]) inType comps
    else if c = ')' ∨ c = ']' then ptcGo cs (depth - 1) (cur ++ [c]) inType comps
    else if c = ',' ∧ depth = 0 then ptcGo cs depth [] inType (ptcFinalize cur comps)
    else if c = ' ' ∧ depth = 0 ∧ (jsTrim cur).isEmpty = false ∧ inType = true then
      ptcGo cs depth cur false comps
    else ptcGo cs depth (cur ++ [c]) inType comps

/-- Embedding of `Decoder.parseTupleComponents`. -/
def parseTupleComponents (s : String) : List Comp := ptcGo s.data 0 [] true []

/-- Fuel-driven embedding of `Decoder.isDynamicType` (decoder.js lines
351-374) on type strings: the checks are, in source order, equality with
string or bytes, an occurrence of the two-character dynamic-array marker, and
the tuple branch that parses the component list and recurses. -/
def isDynamicTypeF : Nat → String → Bool
  | 0, _ => false
  | f + 1, typeStr =>
    if typeStr = ("string") ∨ typeStr = ("bytes") then true
    else if hasSubPair typeStr.data then true
    else if startsWithTuple typeStr.data then
      match matchTupleParen typeStr with
      | some inner => (parseTupleComponents inner).any (fun c => isDynamicTypeF f c.type)
      | none => false
    else false

/-- Embedding of `Decoder.isDynamicType`; the fuel `s.length` always suffices
because every recursive call moves to a component string at least seven
characters shorter. -/
def isDynamicType (s : String) : Bool := isDynamicTypeF s.length s

/-- Lower-case hexadecimal digit. -/
def hexDigitChar (n : Nat) : Char :=
  if n < 10 then Char.ofNat (48 + n) else Char.ofNat (87 + n)

/-- Two lower-case hex characters of one byte. -/
def byteToHexChars (b : JByte) : List Char :=
  [hexDigitChar (b.val / 16), hexDigitChar (b.val % 16)]

/-- Model of `buffer.toString('hex')`. -/
def bytesToHexChars (l : JBuffer) : List Char :=
  l.foldr (fun b acc => byteToHexChars b ++ acc) []

/-- Hex rendering as a `String`. -/
def bytesToHexStr (l : JBuffer) : String := String.mk (bytesToHexChars l)

/-- Value of one hexadecimal character, `none` for a non-hex character. -/
def hexCharVal : Char → Option (Fin 16)
  | c =>
    if h1 : 48 ≤ c.toNat ∧ c.toNat ≤ 57 then some ⟨c.toNat - 48, by omega⟩
    else if h2 : 97 ≤ c.toNat ∧ c.toNat ≤ 102 then some ⟨c.toNat - 87, by omega⟩
    else if h3 : 65 ≤ c.toNat ∧ c.toNat ≤ 70 then some ⟨c.toNat - 55, by omega⟩
    else none

/-- Model of `Buffer.from(hex, 'hex')`: consume complete hex-digit pairs,
stopping at the first invalid or incomplete pair (Node semantics). -/
def hexPairsToBytes : List Char → JBuffer
  | h :: l :: rest =>
    match hexCharVal h, hexCharVal l with
    | some a, some b => ⟨a.val * 16 + b.val, by omega⟩ :: hexPairsToBytes rest
    | _, _ => []
  | _ => []

/-- Does the character list start with the 0x prefix marker? -/
def startsWith0x : List Char → Bool
  | '0' :: 'x' :: _ => true
  | _ => false

/-- Embedding of `hexToBuffer` (utils.js lines 65-68). -/
def hexToBuffer (s : String) : JBuffer :=
  let h := if startsWith0x s.data then s.data.drop 2 else s.data
  hexPairsToBytes h

/-- The Unicode replacement character emitted by lenient UTF-8 decoding. -/
def replChar : Char := Char.ofNat 0xFFFD

/-- Is the byte a UTF-8 continuation byte? -/
def isContByte (b : JByte) : Bool := 128 ≤ b.val ∧ b.val < 192

/-- Payload of a continuation byte. -/
def contVal (b : JByte) : Nat := b.val - 128

/-- Admissible first continuation byte of a three-byte sequence (the E0 and ED
leads restrict it, excluding overlong forms and surrogates). -/
def cont3ok (bv : Nat) (c : JByte) : Bool :=
  if bv = 224 then 160 ≤ c.val ∧ c.val < 192
  else if bv = 237 then 128 ≤ c.val ∧ c.val < 160
  else isContByte c

/-- Admissible first continuation byte of a four-byte sequence. -/
def cont4ok (bv : Nat) (c : JByte) : Bool :=
  if bv = 240 then 144 ≤ c.val ∧ c.val < 192
  else if bv = 244 then 128 ≤ c.val ∧ c.val < 144
  else isContByte c

/-- One step of lenient (WHATWG) UTF-8 decoding, as performed by Node's
`buffer.toString('utf8')`: returns the decoded character (the replacement
character on a malformed maximal subpart) and the remaining input. -/
def utf8Step (b : JByte) (rest : List JByte) : Char × List JByte :=
  let bv := b.val
  if bv < 128 then (Char.ofNat bv, rest)
  else if bv < 194 then (replChar, rest)
  else if bv < 224 then
    match rest with
    | c1 :: r2 => if isContByte c1 then (Char.ofNat ((bv - 192) * 64 + contVal c1), r2) else (replChar, rest)
    | [] => (replChar, [])
  else if bv < 240 then
    match rest with
    | c1 :: r2 =>
      if cont3ok bv c1 then
        match r2 with
        | c2 :: r3 =>
          if isContByte c2 then (Char.ofNat (((bv - 224) * 64 + contVal c1) * 64 + contVal c2), r3)
          else (replChar, r2)
        | [] => (replChar, [])
      else (replChar, rest)
    | [] => (replChar, [])
  else if bv < 245 then
    match rest with
    | c1 :: r2 =>
      if cont4ok bv c1 then
        match r2 with
        | c2 :: r3 =>
          if isContByte c2 then
            match r3 with
            | c3 :: r4 =>
              if isContByte c3 then
                (Char.ofNat ((((bv - 240) * 64 + contVal c1) * 64 + contVal c2) * 64 + contVal c3), r4)
              else (replChar, r3)
            | [] => (replChar, [])
          else (replChar, r2)
        | [] => (replChar, [])
      else (replChar, rest)
    | [] => (replChar, [])
  else (replChar, rest)

/-- Fuel-driven lenient UTF-8 decoding loop; each step consumes at least one
byte, so fuel equal to the input length suffices. -/
def utf8Go : Nat → List JByte → List Char
  | 0, _ => []
  | _, [] => []
  | f + 1, b :: rest =>
    let s := utf8Step b rest
    s.1 :: utf8Go f s.2

/-- Model of `buffer.toString('utf8')`. -/
def utf8DecodeLenient (l : List JByte) : List Char := utf8Go l.length l

/-- Embedding of `Decoder.decodeBool` (decoder.js lines 91-94). -/
def decodeBool (buffer : JBuffer) (offset : Nat) : Except JsErr DRes := do
  let v ← readUInt8 buffer (offset + 31)
  .ok ⟨.vbool (v != 0), offset + 32⟩

/-- Embedding of `Decoder.decodeAddress` (decoder.js lines 145-150): the last
20 bytes of the word, rendered as hex; the slice clamps at the buffer end. -/
def decodeAddress (buffer : JBuffer) (offset : Nat) : Except JsErr DRes :=
  .ok ⟨.vstr (("0x") ++ bytesToHexStr (bslice buffer (offset + 12) (offset + 32))), offset + 32⟩

/-- Embedding of `Decoder.decodeFixedBytes` (decoder.js lines 152-156). -/
def decodeFixedBytes (buffer : JBuffer) (offset : Nat) (size : Nat) : Except JsErr DRes :=
  .ok ⟨.vstr (("0x") ++ bytesToHexStr (bslice buffer offset (offset + size))), offset + 32⟩

/-- Embedding of `Decoder.decodeBytesAt` (decoder.js lines 163-176): length
word, clamped payload slice rendered as hex, and the 32-byte-padded advance. -/
def decodeBytesAt (buffer : JBuffer) (offset : Nat) : Except JsErr DRes := do
  let lr ← decodeUint buffer offset
  let length := jsNumberV lr.value
  let dataOffset := offset + 32
  let value := ("0x") ++ bytesToHexStr (bslice buffer dataOffset (dataOffset + length))
  let paddedLength := (length + 31) / 32 * 32
  .ok ⟨.vstr value, dataOffset + paddedLength⟩

/-- Embedding of `Decoder.decodeBytes` (decoder.js lines 158-161). -/
def decodeBytes (buffer : JBuffer) (offset : Nat) : Except JsErr DRes :=
  decodeBytesAt buffer offset

/-- Extract the string payload of a `Value` (the decoder only applies this to
string-valued results). -/
def valueStr : Value → String
  | .vstr s => s
  | _ => ("")

/-- Embedding of `Decoder.decodeString` (decoder.js lines 178-188): decode as
bytes, convert the hex back to bytes, decode UTF-8 leniently, then remove all
NUL characters and trim whitespace, exactly as the source's clean-up does. -/
def decodeString (buffer : JBuffer) (offset : Nat) : Except JsErr DRes := do
  let br ← decodeBytes buffer offset
  let hex := (valueStr br.value).data.drop 2
  let chars := utf8DecodeLenient (hexPairsToBytes hex)
  let cleaned := jsTrim (chars.filter (fun c => c != Char.ofNat 0))
  .ok ⟨.vstr (String.mk cleaned), br.nextOffset⟩

/-- Index of the first opening square bracket (the source only computes it on
strings that contain one). -/
def firstBracketIdx (l : List Char) : Nat :=
  (l.takeWhile (fun c => c != '[')).length

/-- Sequential element loop of `Decoder.decodeArray` for static element types
(decoder.js lines 236-240), threading `currentOffset` through `nextOffset`. -/
def seqDecode (rec : String → JBuffer → Nat → Except JsErr DRes) (base : String)
    (buffer : JBuffer) : Nat → Nat → Except JsErr (List Value × Nat)
  | offset, 0 => .ok ([], offset)
  | offset, n + 1 => do
    let r ← rec base buffer offset
    let (vs, fo) ← seqDecode rec base buffer r.nextOffset n
    .ok (r.value :: vs, fo)

/-- Embedding of the body of `Decoder.decodeArray` (decoder.js lines 190-244),
parameterised by the recursive decoder `rec` standing for the method call
`this.decodeParameter`.  A `NaN` array length (unparsable fixed-size suffix)
is modelled as 0, which makes the element loop empty exactly as in the
source. -/
def decodeArrayBody (rec : String → JBuffer → Nat → Except JsErr DRes) (type : String)
    (buffer : JBuffer) (offset : Nat) : Except JsErr DRes := do
  let bracketIndex := firstBracketIdx type.data
  let baseType : String := String.mk (type.data.take bracketIndex)
  let arraySpec : List Char := type.data.drop bracketIndex
  let isFixedSize := arraySpec ≠ [ '[' , ']' ]
  let fixedSize : Option Nat := parseIntJs (arraySpec.drop 1).dropLast
  let currentOffset0 ←
    if isDynamicType type then do
      let r ← decodeUint buffer offset
      pure (jsNumberV r.value)
    else pure offset
  let (arrayLength, currentOffset) ←
    if isFixedSize then pure (fixedSize.getD 0, currentOffset0)
    else do
      let lengthResult ← decodeUint buffer currentOffset0
      pure (jsNumberV lengthResult.value, lengthResult.nextOffset)
  if isDynamicType baseType then do
    let staticOffset := currentOffset
    let results ← (List.range arrayLength).mapM (fun i => do
      let er ← decodeUint buffer (staticOffset + i * 32)
      let elementOffset := jsNumberV er.value
      let absoluteOffset := (if isDynamicType type then offset / 32 * 32 else 0) + elementOffset
      let r ← rec baseType buffer absoluteOffset
      pure r.value)
    .ok ⟨.varr results, currentOffset + arrayLength * 32⟩
  else do
    let (vals, finalOff) ← seqDecode rec baseType buffer currentOffset arrayLength
    .ok ⟨.varr vals, finalOff⟩

/-- First pass of `Decoder.decodeTuple` (decoder.js lines 270-294): decode
static components in place, collect `(fieldName, componentType, absoluteOffset)`
for dynamic components, and thread the head cursor. -/
def tuplePass1 (rec : String → JBuffer → Nat → Except JsErr DRes) (buffer : JBuffer)
    (tupleStart : Nat) :
    List Comp → Nat → Nat →
      Except JsErr (List (String × Value) × List (String × String × Nat) × Nat)
  | [], _, currentOffset => .ok ([], [], currentOffset)
  | comp :: rest, i, currentOffset => do
    let fieldName :=
      if comp.name = ("") then String.mk (("field").data ++ natToDecChars i) else comp.name
    if isDynamicType comp.type then do
      let offsetResult ← decodeUint buffer currentOffset
      let relativeOffset := jsNumberV offsetResult.value
      let absoluteOffset := tupleStart + relativeOffset
      let (ss, ds, fo) ← tuplePass1 rec buffer tupleStart rest (i + 1) (currentOffset + 32)
      .ok (ss, (fieldName, comp.type, absoluteOffset) :: ds, fo)
    else do
      let decoded ← rec comp.type buffer currentOffset
      let (ss, ds, fo) ← tuplePass1 rec buffer tupleStart rest (i + 1) decoded.nextOffset
      .ok ((fieldName, decoded.value) :: ss, ds, fo)

/-- Embedding of the body of `Decoder.decodeTuple` (decoder.js lines 246-303)
for string-form tuple types, parameterised by the recursive decoder. -/
def decodeTupleBody (rec : String → JBuffer → Nat → Except JsErr DRes) (type : String)
    (buffer : JBuffer) (offset : Nat) : Except JsErr DRes := do
  match matchTupleParen type with
  | none => .error (.invalidTupleFormat type)
  | some inner => do
    let components := parseTupleComponents inner
    let (statics, dynamics, currentOffset) ← tuplePass1 rec buffer offset components 0 offset
    let dynArgs ← dynamics.mapM (fun d => do
      let r ← rec d.2.1 buffer d.2.2
      pure (d.1, r.value))
    .ok ⟨.vobj (statics ++ dynArgs), currentOffset⟩

/-- Fuel-driven embedding of `Decoder.decodeParameter` (decoder.js lines
42-88) on string-form types, dispatching in source order: arrays, tuples, the
exact base types, then the prefix-matched integer and fixed-bytes families. -/
def decodeParameter : Nat → String → JBuffer → Nat → Except JsErr DRes
  | 0, _, _, _ => .error .fuelExhausted
  | f + 1, type, buffer, offset =>
    if type.data.contains '[' then decodeArrayBody (decodeParameter f) type buffer offset
    else if startsWithTuple type.data then decodeTupleBody (decodeParameter f) type buffer offset
    else if type = ("bool") then decodeBool buffer offset
    else if type = ("address") then decodeAddress buffer offset
    else if type = ("bytes") then decodeBytes buffer offset
    else if type = ("string") then decodeString buffer offset
    else if startsUint type.data then decodeUint buffer offset (jsBits (type.data.drop 4))
    else if startsInt type.data then decodeInt buffer offset (jsBits (type.data.drop 3))
    else if startsBytes type.data ∧ type.data.length > 5 then
      decodeFixedBytes buffer offset ((parseIntJs (type.data.drop 5)).getD 0)
    else .error (.unsupportedType type)

/-- Embedding of `Decoder.decodeArray` as called on a type string. -/
def decodeArray (fuel : Nat) (type : String) (buffer : JBuffer) (offset : Nat) :
    Except JsErr DRes :=
  decodeArrayBody (decodeParameter fuel) type buffer offset

/-- Embedding of `Decoder.decodeTuple` as called on a type string. -/
def decodeTuple (fuel : Nat) (type : String) (buffer : JBuffer) (offset : Nat) :
    Except JsErr DRes :=
  decodeTupleBody (decodeParameter fuel) type buffer offset

/-- Parameter loop of `Decoder.decodeParameters` (decoder.js lines 20-36):
dynamic parameters are decoded at the offset read from the head slot, static
parameters in place, and the head cursor advances by a fixed 32 bytes per
parameter in both cases. -/
def decodeParamsGo (buffer : JBuffer) : List String → Nat → Except JsErr (List Value)
  | [], _ => .ok []
  | t :: rest, staticOffset => do
    let v ←
      if isDynamicType t then do
        let offsetResult ← decodeUint buffer staticOffset
        let dataOffset := jsNumberV offsetResult.value
        let r ← decodeParameter (t.length + 1) t buffer dataOffset
        pure r.value
      else do
        let r ← decodeParameter (t.length + 1) t buffer staticOffset
        pure r.value
    let vs ← decodeParamsGo buffer rest (staticOffset + 32)
    .ok (v :: vs)

/-- Embedding of `Decoder.decodeParameters` (decoder.js lines 10-39). -/
def decodeParameters (types : List String) (data : String) : Except JsErr (List Value) :=
  if data = ("") ∨ data = ("0x") then
    .ok (if types.length = 0 then [] else List.replicate types.length Value.vnull)
  else
    decodeParamsGo (hexToBuffer data) types 0

/-- One event parameter of an ABI event definition. -/
structure EventInput where
  name : String
  type : String
  indexed : Bool
deriving Repr

/-- An ABI event definition as consumed by `decodeLog`. -/
structure EventAbi where
  name : String
  inputs : List EventInput
deriving Repr

/-- Decoded log record `{ name, args }`; the argument record is modelled as a
list of named fields in JavaScript insertion order. -/
structure DecodedLog where
  name : String
  args : List (String × Value)
deriving Repr

/-- Indexed-parameter loop of `Decoder.decodeLog` (decoder.js lines 385-400):
parameter `i` uses `topics[i + 1]`; a missing (or otherwise falsy) topic is
skipped with `continue`; a dynamic parameter stores the raw topic; a static
one is decoded from the topic's buffer at offset 0. -/
def decodeLogIndexed (topics : List String) :
    List EventInput → Nat → Except JsErr (List (String × Value))
  | [], _ => .ok []
  | p :: rest, i =>
    match topics.get? (i + 1) with
    | none => decodeLogIndexed topics rest (i + 1)
    | some topic =>
      if topic = ("") then decodeLogIndexed topics rest (i + 1)
      else if isDynamicType p.type then do
        let xs ← decodeLogIndexed topics rest (i + 1)
        .ok ((p.name, Value.vstr topic) :: xs)
      else do
        let topicBuffer := hexToBuffer topic
        let r ← decodeParameter (p.type.length + 1) p.type topicBuffer 0
        let xs ← decodeLogIndexed topics rest (i + 1)
        .ok ((p.name, r.value) :: xs)

/-- Embedding of `Decoder.decodeLog` (decoder.js lines 377-413). -/
def decodeLog (eventAbi : EventAbi) (data : String) (topics : List String) :
    Except JsErr DecodedLog := do
  let indexedParams := eventAbi.inputs.filter (fun p => p.indexed)
  let nonIndexedParams := eventAbi.inputs.filter (fun p => !p.indexed)
  let idxArgs ← decodeLogIndexed topics indexedParams 0
  let dataArgs ←
    if nonIndexedParams.length > 0 ∧ data ≠ ("") ∧ data ≠ ("0x") then do
      let types := nonIndexedParams.map (fun p => p.type)
      let decodedData ← decodeParameters types data
      pure (List.zipWith (fun p v => (p.name, v)) nonIndexedParams decodedData)
    else pure []
  .ok ⟨eventAbi.name, idxArgs ++ dataArgs⟩

/-- Embedding of `getBaseCanonicalType` (utils.js lines 50-62); the bytes
branch of the source is literally `type === 'bytes' && !type.includes('bytes')`
and can never fire. -/
def getBaseCanonicalType (type : String) : String :=
  if type = ("tuple") then ("tuple")
  else if type = ("uint") then ("uint256")
  else if type = ("int") then ("int256")
  else if type = ("bytes") ∧ hasSubList (("bytes")).data type.data = false then ("bytes")
  else type

/-- Embedding of `getCanonicalType` (utils.js lines 37-48): the part before
the first bracket is canonicalised and the array suffix is appended
unchanged. -/
def getCanonicalType (ptype : String) : String :=
  if ptype.data.contains '[' then
    let baseType : String := String.mk (ptype.data.takeWhile (fun c => c != '['))
    let arrayPart : String := String.mk (ptype.data.drop baseType.length)
    getBaseCanonicalType baseType ++ arrayPart
  else getBaseCanonicalType ptype

/-- Model of `Array.prototype.join` with a comma separator. -/
def joinComma : List String → String
  | [] => ("")
  | [x] => x
  | x :: xs => x ++ (",") ++ joinComma xs

/-- Embedding of `getFunctionSignature` (utils.js lines 25-28) on the input
parameter type strings. -/
def getFunctionSignature (name : String) (inputs : List String) : String :=
  name ++ ("(") ++ joinComma (inputs.map getCanonicalType) ++ (")")

/-- Embedding of `getEventSignature` (utils.js lines 31-34); identical rule. -/
def getEventSignature (name : String) (inputs : List String) : String :=
  getFunctionSignature name inputs

/-- A 32-byte big-endian word read, clamped at the buffer end (the
specification-side description of what a successful 256-bit `decodeUint`
yields). -/
def word256 (buf : JBuffer) (off : Nat) : Nat :=
  bytesToNat (bslice buf off (off + 32))

/-- Reference decoder for a dynamic array of dynamic elements, written from
the claim's words: read the array's data offset at `off`, the length `L` at
that offset, then for each `i < L` read the element offset word and decode the
element at `⌊off / 32⌋ * 32 + elementOffset`, the outer offset rounded down to
a word boundary plus the recorded element offset. -/
def refDynDynArray (rec : String → JBuffer → Nat → Except JsErr DRes) (elem : String)
    (buf : JBuffer) (off : Nat) : Except JsErr DRes := do
  let dataOffset := word256 buf off
  let len := word256 buf dataOffset
  let results ← (List.range len).mapM (fun i => do
    let elementOffset := word256 buf (dataOffset + 32 + i * 32)
    let r ← rec elem buf (off / 32 * 32 + elementOffset)
    pure r.value)
  .ok ⟨.varr results, (dataOffset + 32) + len * 32⟩


/-- Structured ABI types, the specification side of the dynamism claim. -/
inductive ABIType where
  | uintT (bits : Nat)
  | intT (bits : Nat)
  | boolT
  | addressT
  | fixedBytesT (n : Nat)
  | bytesT
  | stringT
  | fixedArrayT (elem : ABIType) (n : Nat)
  | dynArrayT (elem : ABIType)
  | tupleT (fields : List ABIType)

mutual

/-- Canonical rendering of a structured type as the character list of its type
string, exactly as the decoder receives it. -/
def renderL : ABIType → List Char
  | .uintT bits => ("uint").data ++ natToDecChars bits
  | .intT bits => ("int").data ++ natToDecChars bits
  | .boolT => ("bool").data
  | .addressT => ("address").data
  | .fixedBytesT n => ("bytes").data ++ natToDecChars n
  | .bytesT => ("bytes").data
  | .stringT => ("string").data
  | .fixedArrayT e n => renderL e ++ '[' :: (natToDecChars n ++ [ ']' ])
  | .dynArrayT e => renderL e ++ [ '[' , ']' ]
  | .tupleT fs => ("tuple(").data ++ renderLList fs ++ [ ')' ]

/-- Comma-joined renderings of tuple fields. -/
def renderLList : List ABIType → List Char
  | [] => []
  | [t] => renderL t
  | t :: ts => renderL t ++ ',' :: renderLList ts

end

/-- Canonical rendering as a `String`. -/
def render (T : ABIType) : String := String.mk (renderL T)

mutual

/-- Does the type contain a dynamic-array constructor anywhere (equivalently:
does its rendering contain the bracket-pair marker)? -/
def hasDynArr : ABIType → Bool
  | .fixedArrayT e _ => hasDynArr e
  | .dynArrayT _ => true
  | .tupleT fs => hasDynArrList fs
  | _ => false

/-- List version of `hasDynArr`. -/
def hasDynArrList : List ABIType → Bool
  | [] => false
  | t :: ts => hasDynArr t || hasDynArrList ts

end

mutual

/-- The amended specification-side dynamism predicate: Bytes, String and
DynamicArray are dynamic; a FixedArray is dynamic iff its element contains a
DynamicArray; a Tuple is dynamic iff one of its fields is. -/
def dynAmended : ABIType → Bool
  | .bytesT => true
  | .stringT => true
  | .dynArrayT _ => true
  | .fixedArrayT e _ => hasDynArr e
  | .tupleT fs => dynAmendedList fs
  | _ => false

/-- List version of `dynAmended`. -/
def dynAmendedList : List ABIType → Bool
  | [] => false
  | t :: ts => dynAmended t || dynAmendedList ts

end

/-- Whitespace-free character lists. -/
def noWsL (l : List Char) : Bool := l.all (fun c => !jsIsWs c)

/-- Scanning check that a character list, started at bracket depth `d`, never
produces a split point for `ptcGo`: no spaces at all, commas only at nonzero
depth, closing brackets only at positive depth. -/
def noSplitChars : Int → List Char → Bool
  | _, [] => true
  | d, c :: cs =>
    if c = '(' ∨ c = '[' then noSplitChars (d + 1) cs
    else if c = ')' ∨ c = ']' then decide (0 < d) && noSplitChars (d - 1) cs
    else if c = ',' then decide (d ≠ 0) && noSplitChars d cs
    else if c = ' ' then false
    else noSplitChars d cs

/-- Final bracket depth after scanning a character list. -/
def endDepth : Int → List Char → Int
  | d, [] => d
  | d, c :: cs =>
    if c = '(' ∨ c = '[' then endDepth (d + 1) cs
    else if c = ')' ∨ c = ']' then endDepth (d - 1) cs
    else endDepth d cs

/-- The component list `parseTupleComponents` produces on a clean joined
rendering: one component per chunk with synthetic field names numbered from
`k`. -/
def expComps : Nat → List (List Char) → List Comp
  | _, [] => []
  | k, x :: xs =>
    ⟨String.mk x, String.mk (("field").data ++ natToDecChars k)⟩ :: expComps (k + 1) xs

/-- Model of `Array.prototype.join` with a comma at the character level. -/
def joinCommaL : List (List Char) → List Char
  | [] => []
  | [x] => x
  | x :: xs => x ++ ',' :: joinCommaL xs

/-- Characters that play no structural role for the component parser. -/
def plainChar (c : Char) : Bool :=
  c ≠ '(' ∧ c ≠ ')' ∧ c ≠ '[' ∧ c ≠ ']' ∧ c ≠ ',' ∧ !jsIsWs c

end Abi

/-- Claim C4 (code_bug evidence): for the type list `[uint256[2], uint256]`
over the three words 1, 2, 3, the head cursor advances by a fixed 32 bytes
after the 64-byte static array, so the second parameter is read at offset 32
and returns 2 (the middle of the array) instead of 3. -/
theorem C4_decodeParameters_static_advance_bug :
    Abi.decodeParameters [("uint256[2]"), ("uint256")]
      ("0x000000000000000000000000000000000000000000000000000000000000000100000000000000000000000000000000000000000000000000000000000000020000000000000000000000000000000000000000000000000000000000000003") =
      .ok [.varr [.vstr ("1"), .vstr ("2")], .vstr ("2")] := by
  rfl

/-- Claim C5 (counterexample): decoding an address from an empty buffer does
not fail with any truncation error; the slice clamps and the decoder silently
returns a value built from zero bytes. -/
theorem C5_truncation_counterexample :
    Abi.decodeAddress [] 0 = .ok ⟨.vstr ("0x"), 32⟩ := by
  rfl

/-- Claim C6 (counterexample): a valid-UTF-8 bytes payload `61 00 62` decoded
as a string yields "ab" — the embedded NUL byte is stripped by the source's
clean-up — and not the exact three-character text the claim requires. -/
theorem C6_string_nul_counterexample :
    Abi.decodeString
      (List.replicate 31 (0 : Fin 256) ++ [(3 : Fin 256)] ++
        [(97 : Fin 256), (0 : Fin 256), (98 : Fin 256)] ++ List.replicate 29 (0 : Fin 256)) 0 =
      .ok ⟨.vstr ("ab"), 64⟩ ∧
      ("ab") ≠ String.mk [ 'a' , Char.ofNat 0, 'b' ] := by
  exact ⟨rfl, by decide⟩

/-- Claim C7 (counterexample): an event with one indexed parameter decoded
with a topics list of length one (m + 1 = 2 entries required) does not fail
with any topic-count error; the missing indexed parameter is silently skipped
and the result record simply lacks it. -/
theorem C7_decodeLog_counterexample :
    Abi.decodeLog ⟨("Mint"), [⟨("to"), ("address"), true⟩, ⟨("amount"), ("uint256"), false⟩]⟩
      ("0x0000000000000000000000000000000000000000000000000000000000000005")
      [("0x01")] =
      .ok ⟨("Mint"), [(("amount"), .vstr ("5"))]⟩ := by
  rfl

/-- Claim C8 (counterexample): the canonical type of a tuple parameter is the
literal token tuple, not the parenthesised expansion of its components. -/
theorem C8_canonical_tuple_counterexample :
    Abi.getCanonicalType ("tuple") = ("tuple") ∧ ("tuple") ≠ ("(address,uint256)") := by
  exact ⟨rfl, by decide⟩

/-- Claim C1 (code_bug evidence): the canonical sign-extended encoding of −1
(thirty-two 0xFF bytes) does NOT decode to −1 as `int8`.  The source subtracts
`2 ^ 8` (not `2 ^ 256`) from the raw value, producing `2 ^ 256 − 257`, which
fails the range check, so the decoder throws a range error where the claim
requires the value −1. -/
theorem C1_decodeInt_minus_one_rejected_bug :
    Abi.decodeInt (List.replicate 32 (255 : Fin 256)) 0 8 =
      .error (.valueOutOfRange 8 ((2 : Int) ^ 256 - 257)) := by
  rfl

/-- Claim C3 (code_bug evidence): a 32-byte word whose raw big-endian value is
`2 ^ 64` (single 0x01 byte at index 23) decoded as `uint8` does NOT fail with a
range error: the `bits ≤ 64` fast path reads only the last 8 bytes, so the
decoder silently returns the string value 0. -/
theorem C3_decodeUint_highbytes_bug :
    Abi.decodeUint
      (List.replicate 23 (0 : Fin 256) ++ [(1 : Fin 256)] ++ List.replicate 8 (0 : Fin 256))
      0 8 = .ok ⟨.vstr (Abi.natToDecString 0), 32⟩ := by
  rfl

namespace Abi

/-- Binding an ok result just applies the continuation. -/
theorem ok_bind {α β : Type} (a : α) (f : α → Except JsErr β) :
    (Except.ok a >>= f : Except JsErr β) = f a := rfl

/-- Binding an error propagates it. -/
theorem error_bind {α β : Type} (e : JsErr) (f : α → Except JsErr β) :
    ((Except.error e : Except JsErr α) >>= f) = Except.error e := rfl

/-- Pure in the Except monad is ok. -/
theorem pure_eq_ok {α : Type} (a : α) : (pure a : Except JsErr α) = Except.ok a := rfl

/-- Folding one more digit onto a parsed decimal prefix. -/
theorem parseDecDigits_concat (l : List Char) (c : Char) :
    parseDecDigits (l ++ [c]) = parseDecDigits l * 10 + (c.toNat - 48) := by
  simp [parseDecDigits, List.foldl_append]

/-- Code of a decimal digit character. -/
theorem digitChar_toNat (n : Nat) (h : n < 10) : (digitChar n).toNat = 48 + n := by
  interval_cases n <;> decide

/-- Printing then parsing a decimal number is the identity (fuel version). -/
theorem natToDecCore_parse (f : Nat) : ∀ n, n < f → parseDecDigits (natToDecCore f n) = n := by
  induction f with
  | zero => intro n h; omega
  | succ f ih =>
    intro n h
    rw [natToDecCore]
    by_cases h10 : n < 10
    · rw [if_pos h10]
      simp [parseDecDigits, digitChar_toNat n h10]
    · rw [if_neg h10]
      have hd : n / 10 < n := Nat.div_lt_self (by omega) (by omega)
      rw [parseDecDigits_concat, ih (n / 10) (by omega),
        digitChar_toNat (n % 10) (Nat.mod_lt n (by omega))]
      omega

/-- Printing then parsing a decimal number is the identity. -/
theorem parseDec_natToDecChars (n : Nat) : parseDecDigits (natToDecChars n) = n :=
  natToDecCore_parse (n + 1) n (Nat.lt_succ_self n)

/-- The `Number` conversion recovers the number from the decoder's decimal
string value. -/
theorem jsNumberV_decString (n : Nat) : jsNumberV (Value.vstr (natToDecString n)) = n := by
  show parseDecDigits (natToDecChars n) = n
  exact parseDec_natToDecChars n

/-- Folding bytes big-endian from an arbitrary accumulator. -/
theorem bytesToNat_foldl (l : JBuffer) : ∀ acc : Nat,
    l.foldl (fun a b => a * 256 + b.val) acc = acc * 256 ^ l.length + bytesToNat l := by
  induction l with
  | nil => intro acc; simp [bytesToNat]
  | cons c cs ih =>
    intro acc
    show cs.foldl _ (acc * 256 + c.val) = _
    rw [ih (acc * 256 + c.val)]
    have h2 : bytesToNat (c :: cs) = c.val * 256 ^ cs.length + bytesToNat cs := by
      show cs.foldl _ (0 * 256 + c.val) = _
      rw [ih (0 * 256 + c.val)]
      ring
    rw [h2, List.length_cons]
    ring

/-- Unfolding one byte of the big-endian value. -/
theorem bytesToNat_cons (c : JByte) (cs : JBuffer) :
    bytesToNat (c :: cs) = c.val * 256 ^ cs.length + bytesToNat cs := by
  show cs.foldl _ (0 * 256 + c.val) = _
  rw [bytesToNat_foldl]
  ring

/-- The big-endian value of a byte list is bounded by its width. -/
theorem bytesToNat_lt (l : JBuffer) : bytesToNat l < 256 ^ l.length := by
  induction l with
  | nil => simp [bytesToNat]
  | cons c cs ih =>
    rw [bytesToNat_cons, List.length_cons]
    have hc : c.val ≤ 255 := by omega
    have h1 : c.val * 256 ^ cs.length ≤ 255 * 256 ^ cs.length :=
      Nat.mul_le_mul_right _ hc
    have h2 : 255 * 256 ^ cs.length + 256 ^ cs.length = 256 ^ (cs.length + 1) := by ring
    omega

/-- A clamped 32-byte word read is below `2 ^ 256`. -/
theorem word256_le (buf : JBuffer) (off : Nat) : word256 buf off ≤ 2 ^ 256 - 1 := by
  have h1 : (bslice buf off (off + 32)).length ≤ 32 := by
    simp [bslice, List.length_take]
  have h2 := bytesToNat_lt (bslice buf off (off + 32))
  have h3 : (256 : Nat) ^ (bslice buf off (off + 32)).length ≤ 256 ^ 32 :=
    Nat.pow_le_pow_right (by omega) h1
  have h4 : (256 : Nat) ^ 32 = 2 ^ 256 := by norm_num
  show bytesToNat (bslice buf off (off + 32)) ≤ 2 ^ 256 - 1
  omega

/-- A 256-bit `decodeUint` always succeeds and returns the decimal string of
the clamped big-endian word. -/
theorem decodeUint256_ok (buf : JBuffer) (off : Nat) :
    decodeUint buf off 256 = .ok ⟨.vstr (natToDecString (word256 buf off)), off + 32⟩ := by
  have hval : (if (bslice buf off (off + 32)).isEmpty then 0
      else bytesToNat (bslice buf off (off + 32))) = word256 buf off := by
    by_cases he : (bslice buf off (off + 32)).isEmpty
    · have : bslice buf off (off + 32) = [] := by
        simpa [List.isEmpty_iff] using he
      simp [he, word256, this, bytesToNat]
    · simp [he, word256]
  have hrange : ¬ word256 buf off > 2 ^ 256 - 1 := by
    have := word256_le buf off
    omega
  unfold decodeUint
  rw [if_neg (by omega : ¬ (256 : Nat) ≤ 64)]
  rw [pure_eq_ok, ok_bind, hval]
  simp only [if_neg hrange]

/-- Shape of any successful `decodeUint` continuation: the result is the
decimal string of the computed value together with the 32-byte advance. -/
theorem uintCont_shape (bits off : Nat) (v : Nat) (r : DRes)
    (h : (if v > 2 ^ bits - 1 then (Except.error (JsErr.valueTooLarge bits v) : Except JsErr DRes)
          else Except.ok ⟨Value.vstr (natToDecString v), off + 32⟩) = .ok r) :
    ∃ n, r = ⟨Value.vstr (natToDecString n), off + 32⟩ := by
  split at h
  · exact Except.noConfusion h
  · exact ⟨v, by cases h; rfl⟩

end Abi

/-- Claim C10: every successfully decoded unsigned integer value is returned
as the decimal string of some natural number (recoverable exactly by the
`Number` conversion the decoder itself uses for offsets and lengths), and
every successfully decoded signed integer value is the decimal string of some
integer.  All composite decoders (arrays, tuples, logs) obtain integer values
through these two functions. -/
theorem C10_decimal_string_return :
    (∀ (buf : Abi.JBuffer) (off bits : Nat) (r : Abi.DRes),
        Abi.decodeUint buf off bits = .ok r →
        ∃ n : Nat, r.value = Abi.Value.vstr (Abi.natToDecString n) ∧
          Abi.jsNumberV r.value = n) ∧
    (∀ (buf : Abi.JBuffer) (off bits : Nat) (r : Abi.DRes),
        Abi.decodeInt buf off bits = .ok r →
        ∃ i : Int, r.value = Abi.Value.vstr (Abi.intToDecString i)) := by
  constructor
  · intro buf off bits r h
    unfold Abi.decodeUint at h
    have key : ∃ n, r = ⟨Abi.Value.vstr (Abi.natToDecString n), off + 32⟩ := by
      by_cases hb : bits ≤ 64
      · rw [if_pos hb] at h
        cases h1 : Abi.readUInt32BE buf (off + 24) with
        | error e =>
          rw [h1] at h
          simp only [Abi.error_bind] at h
          exact Except.noConfusion h
        | ok high =>
          rw [h1] at h
          rw [Abi.ok_bind] at h
          cases h2 : Abi.readUInt32BE buf (off + 28) with
          | error e =>
            rw [h2] at h
            simp only [Abi.error_bind] at h
            exact Except.noConfusion h
          | ok low =>
            rw [h2] at h
            rw [Abi.ok_bind, Abi.pure_eq_ok, Abi.ok_bind] at h
            exact Abi.uintCont_shape bits off _ r h
      · rw [if_neg hb, Abi.pure_eq_ok, Abi.ok_bind] at h
        exact Abi.uintCont_shape bits off _ r h
    obtain ⟨n, rfl⟩ := key
    exact ⟨n, rfl, Abi.jsNumberV_decString n⟩
  · intro buf off bits r h
    unfold Abi.decodeInt at h
    dsimp only [] at h
    split at h
    · exact Except.noConfusion h
    · split at h <;> split at h <;>
        first
          | exact Except.noConfusion h
          | (cases h; exact ⟨_, rfl⟩)

/-- Claim C10 witness: instantiating both parts at concrete calls. -/
theorem C10_decimal_string_return_witness :
    (∃ n : Nat, (Abi.DRes.mk (Abi.Value.vstr (Abi.natToDecString 0)) 32).value =
        Abi.Value.vstr (Abi.natToDecString n) ∧
      Abi.jsNumberV (Abi.DRes.mk (Abi.Value.vstr (Abi.natToDecString 0)) 32).value = n) ∧
    (∃ i : Int, (Abi.DRes.mk (Abi.Value.vstr (Abi.intToDecString 0)) 32).value =
        Abi.Value.vstr (Abi.intToDecString i)) :=
  ⟨C10_decimal_string_return.1 [] 0 256 ⟨Abi.Value.vstr (Abi.natToDecString 0), 32⟩ rfl,
   C10_decimal_string_return.2 [(0 : Fin 256)] 0 256 ⟨Abi.Value.vstr (Abi.intToDecString 0), 32⟩ rfl⟩

/-- Claim C5 (amended): out-of-range reads do not raise a truncation error;
`decodeAddress` and `decodeFixedBytes` always succeed, returning the hex of
the clamped slice, whose length can fall short of the declared 20 bytes when
the buffer ends early. -/
theorem C5_clamping_amended (buf : Abi.JBuffer) (off size : Nat) :
    Abi.decodeAddress buf off =
      .ok ⟨.vstr (("0x") ++ Abi.bytesToHexStr (Abi.bslice buf (off + 12) (off + 32))), off + 32⟩ ∧
    Abi.decodeFixedBytes buf off size =
      .ok ⟨.vstr (("0x") ++ Abi.bytesToHexStr (Abi.bslice buf off (off + size))), off + 32⟩ ∧
    (Abi.bslice buf (off + 12) (off + 32)).length = min 20 (buf.length - (off + 12)) := by
  refine ⟨rfl, rfl, ?_⟩
  simp [Abi.bslice, List.length_take]

/-- Claim C8 (amended): for a tuple input the function signature embeds the
literal token tuple produced by `getCanonicalType`, with the other parameters
canonicalised around it. -/
theorem C8_signature_amended (name : String) (pre post : List String) :
    Abi.getFunctionSignature name (pre ++ ("tuple") :: post) =
      name ++ ("(") ++
        Abi.joinComma (pre.map Abi.getCanonicalType ++ ("tuple") :: post.map Abi.getCanonicalType) ++
        (")") := by
  simp only [Abi.getFunctionSignature, List.map_append, List.map_cons]
  rfl

namespace Abi

/-- The head of a dropWhile result never satisfies the dropped predicate. -/
theorem head?_dropWhile_false (p : Char → Bool) (l : List Char) (c : Char)
    (h : (l.dropWhile p).head? = some c) : p c = false := by
  have := List.head?_dropWhile_not p l
  rw [h] at this
  exact this

/-- Membership in a trimmed list implies membership in the original. -/
theorem mem_jsTrim (l : List Char) (c : Char) (h : c ∈ jsTrim l) : c ∈ l := by
  unfold jsTrim at h
  rw [List.mem_reverse] at h
  have h1 : c ∈ (l.dropWhile jsIsWs).reverse :=
    (List.dropWhile_sublist jsIsWs).subset h
  rw [List.mem_reverse] at h1
  exact (List.dropWhile_sublist jsIsWs).subset h1

/-- The first character of a trimmed list is not whitespace. -/
theorem jsTrim_head?_not_ws (l : List Char) (c : Char) (h : (jsTrim l).head? = some c) :
    jsIsWs c = false := by
  unfold jsTrim at h
  have hsuf : ((l.dropWhile jsIsWs).reverse.dropWhile jsIsWs) <:+ (l.dropWhile jsIsWs).reverse :=
    List.dropWhile_suffix jsIsWs
  have hpre : ((l.dropWhile jsIsWs).reverse.dropWhile jsIsWs).reverse <+: l.dropWhile jsIsWs := by
    have h2 := hsuf.reverse
    rw [List.reverse_reverse] at h2
    exact h2
  obtain ⟨t, ht⟩ := hpre
  cases hc : ((l.dropWhile jsIsWs).reverse.dropWhile jsIsWs).reverse with
  | nil => rw [hc] at h; exact Option.noConfusion h
  | cons a as =>
    rw [hc] at h ht
    have ha : a = c := by
      simpa using h
    subst ha
    have : (l.dropWhile jsIsWs).head? = some a := by
      rw [← ht]
      rfl
    exact head?_dropWhile_false jsIsWs l a this

/-- The last character of a trimmed list is not whitespace. -/
theorem jsTrim_getLast?_not_ws (l : List Char) (c : Char) (h : (jsTrim l).getLast? = some c) :
    jsIsWs c = false := by
  unfold jsTrim at h
  rw [List.getLast?_reverse] at h
  exact head?_dropWhile_false jsIsWs (l.dropWhile jsIsWs).reverse c h

/-- A `decodeBytesAt` call always succeeds, with the payload clamped to the
available bytes and the padded cursor advance. -/
theorem decodeBytesAt_ok (buf : JBuffer) (off : Nat) :
    decodeBytesAt buf off =
      .ok ⟨.vstr (("0x") ++ bytesToHexStr (bslice buf (off + 32) (off + 32 + word256 buf off))),
        (off + 32) + (word256 buf off + 31) / 32 * 32⟩ := by
  unfold decodeBytesAt
  rw [decodeUint256_ok, ok_bind]
  simp only [jsNumberV_decString]

end Abi

/-- Claim C6 (amended): decoding a string never fails (there is no UTF-8
validation and no InvalidUtf8 error; invalid sequences become replacement
characters), and the returned text has had every NUL character removed and
surrounding whitespace trimmed, so embedded NULs and leading or trailing
whitespace are never preserved. -/
theorem C6_decodeString_amended (buf : Abi.JBuffer) (off : Nat) :
    ∃ (s : String) (next : Nat),
      Abi.decodeString buf off = .ok ⟨.vstr s, next⟩ ∧
      (∀ c ∈ s.data, c ≠ Char.ofNat 0) ∧
      (∀ c, s.data.head? = some c → Abi.jsIsWs c = false) ∧
      (∀ c, s.data.getLast? = some c → Abi.jsIsWs c = false) := by
  have hb : Abi.decodeBytes buf off =
      .ok ⟨.vstr (("0x") ++ Abi.bytesToHexStr (Abi.bslice buf (off + 32) (off + 32 + Abi.word256 buf off))),
        (off + 32) + (Abi.word256 buf off + 31) / 32 * 32⟩ := Abi.decodeBytesAt_ok buf off
  unfold Abi.decodeString
  rw [hb, Abi.ok_bind]
  refine ⟨_, _, rfl, ?_, ?_, ?_⟩
  · intro c hc
    have h1 := Abi.mem_jsTrim _ c hc
    rw [List.mem_filter] at h1
    have := h1.2
    simpa using this
  · intro c hc
    exact Abi.jsTrim_head?_not_ws _ c hc
  · intro c hc
    exact Abi.jsTrim_getLast?_not_ws _ c hc

/-- Claim C7 (amended): when the topics list has fewer than m + 1 entries for
an event with m indexed parameters, `decodeLog` does not fail with any
topic-count error: the indexed parameters without a topic are silently skipped
(`continue`) and simply absent from the returned args, while the non-indexed
data still decodes. -/
theorem C7_decodeLog_amended (topics : List String) (h : topics.length ≤ 1) :
    Abi.decodeLog ⟨("Mint"), [⟨("to"), ("address"), true⟩, ⟨("amount"), ("uint256"), false⟩]⟩
      ("0x0000000000000000000000000000000000000000000000000000000000000005") topics =
      .ok ⟨("Mint"), [(("amount"), .vstr ("5"))]⟩ := by
  have hnone : topics.get? (0 + 1) = none := List.get?_eq_none.mpr (by omega)
  have h1 : Abi.decodeLogIndexed topics [⟨("to"), ("address"), true⟩] 0 = .ok [] := by
    unfold Abi.decodeLogIndexed
    rw [hnone]
    rfl
  unfold Abi.decodeLog
  dsimp only []
  rw [show (List.filter (fun p => p.indexed)
      [(⟨("to"), ("address"), true⟩ : Abi.EventInput), ⟨("amount"), ("uint256"), false⟩]) =
      [⟨("to"), ("address"), true⟩] from rfl]
  rw [h1, Abi.ok_bind]
  rfl

/-- Claim C7 amended witness: a concrete one-element topics list. -/
theorem C7_decodeLog_amended_witness :
    ([("0x00")] : List String).length ≤ 1 ∧
    Abi.decodeLog ⟨("Mint"), [⟨("to"), ("address"), true⟩, ⟨("amount"), ("uint256"), false⟩]⟩
      ("0x0000000000000000000000000000000000000000000000000000000000000005") [("0x00")] =
      .ok ⟨("Mint"), [(("amount"), .vstr ("5"))]⟩ :=
  ⟨by decide, C7_decodeLog_amended [("0x00")] (by decide)⟩

namespace Abi

/-- Extending a list with a bracket pair marks it dynamic (cons step). -/
theorem hasSubPair_cons_of (x : Char) (xs : List Char) (h : hasSubPair xs = true) :
    hasSubPair (x :: xs) = true := by
  cases xs with
  | nil => simp [hasSubPair] at h
  | cons b rest => simp [hasSubPair, h]

/-- Any list followed by an opening-closing bracket pair contains the pair. -/
theorem hasSubPair_append_pair (l : List Char) : hasSubPair (l ++ [ '[' , ']' ]) = true := by
  induction l with
  | nil => rfl
  | cons c cs ih => exact hasSubPair_cons_of c _ ih

/-- The takeWhile up to the first bracket passes over a bracket-free prefix. -/
theorem takeWhile_append_nonbracket (l rest : List Char) (hl : '[' ∉ l) :
    (l ++ '[' :: rest).takeWhile (fun c => c != '[') = l := by
  induction l with
  | nil => simp [List.takeWhile_cons]
  | cons c cs ih =>
    have hc : c ≠ '[' := fun hh => hl (hh ▸ List.mem_cons_self c cs)
    have hcs : '[' ∉ cs := fun hh => hl (List.mem_cons_of_mem c hh)
    simp [List.takeWhile_cons, hc, ih hcs]

/-- Index of the first bracket after a bracket-free prefix. -/
theorem firstBracketIdx_elem (l rest : List Char) (hl : '[' ∉ l) :
    firstBracketIdx (l ++ '[' :: rest) = l.length := by
  unfold firstBracketIdx
  rw [takeWhile_append_nonbracket l rest hl]

/-- A type string ending in a bracket pair is neither string nor bytes. -/
theorem append_brackets_ne_str (elem : String) :
    ¬((elem ++ ("[]")) = ("string") ∨ (elem ++ ("[]")) = ("bytes")) := by
  intro h
  have hdata : (elem ++ ("[]")).data = elem.data ++ [ '[' , ']' ] := by
    cases elem
    rfl
  have hlast : (elem ++ ("[]")).data.getLast? = some ']' := by
    rw [hdata, show elem.data ++ [ '[' , ']' ] = (elem.data ++ [ '[' ]) ++ [ ']' ] by simp,
      List.getLast?_concat]
  cases h with
  | inl h => rw [h] at hlast; exact absurd hlast (by decide)
  | inr h => rw [h] at hlast; exact absurd hlast (by decide)

/-- Appending the dynamic-array suffix always yields a dynamic type for the
source's predicate (the bracket-pair check fires). -/
theorem isDynamicType_append_brackets (elem : String) :
    isDynamicType (elem ++ ("[]")) = true := by
  have hdata : (elem ++ ("[]")).data = elem.data ++ [ '[' , ']' ] := by
    cases elem
    rfl
  have hlen : (elem ++ ("[]")).length = elem.length + 1 + 1 := by
    cases elem with
    | mk l =>
      show (l ++ [ '[' , ']' ]).length = l.length + 1 + 1
      rw [List.length_append]
      rfl
  unfold isDynamicType
  rw [hlen]
  simp only [isDynamicTypeF]
  rw [if_neg (append_brackets_ne_str elem)]
  rw [hdata]
  rw [hasSubPair_append_pair]
  simp

end Abi

/-- Claim C9 (confirmed): for every dynamic array type with a bracket-free
dynamic element type, the source's array decoder coincides with the reference
decoder that resolves each element at `⌊outer_offset / 32⌋ * 32 +
element_offset` — the outer array's own offset rounded down to a 32-byte word
boundary plus the element's recorded offset — rather than relative to the
array's own block. -/
theorem C9_decodeArray_absolute_offset
    (rec : String → Abi.JBuffer → Nat → Except Abi.JsErr Abi.DRes) (elem : String)
    (buf : Abi.JBuffer) (off : Nat)
    (hbr : '[' ∉ elem.data) (hdyn : Abi.isDynamicType elem = true) :
    Abi.decodeArrayBody rec (elem ++ ("[]")) buf off = Abi.refDynDynArray rec elem buf off := by
  have hdata : (elem ++ ("[]")).data = elem.data ++ [ '[' , ']' ] := by
    cases elem
    rfl
  unfold Abi.decodeArrayBody Abi.refDynDynArray
  dsimp only []
  rw [hdata, Abi.firstBracketIdx_elem _ _ hbr, List.take_left, List.drop_left]
  rw [show String.mk elem.data = elem from rfl]
  simp [Abi.isDynamicType_append_brackets, hdyn, Abi.decodeUint256_ok, Abi.ok_bind,
    Abi.pure_eq_ok, Abi.jsNumberV_decString]

/-- Claim C9 witness: the element type string, at a concrete decoder and
input. -/
theorem C9_decodeArray_absolute_offset_witness :
    ('[' ∉ ("string").data) ∧ Abi.isDynamicType ("string") = true ∧
    Abi.decodeArrayBody (fun _ _ _ => .ok ⟨.vnull, 0⟩) (("string") ++ ("[]")) [] 7 =
      Abi.refDynDynArray (fun _ _ _ => .ok ⟨.vnull, 0⟩) ("string") [] 7 :=
  ⟨by decide, by decide,
    C9_decodeArray_absolute_offset (fun _ _ _ => .ok ⟨.vnull, 0⟩) ("string") [] 7
      (by decide) (by decide)⟩

namespace Abi

theorem natToDecCore_mem (f : Nat) : ∀ (n : Nat) (c : Char), c ∈ natToDecCore f n →
    ∃ k, k < 10 ∧ c = digitChar k := by
  induction f with
  | zero => intro n c h; simp [natToDecCore] at h
  | succ f ih =>
    intro n c h
    rw [natToDecCore] at h
    by_cases h10 : n < 10
    · rw [if_pos h10] at h
      simp at h
      exact ⟨n, h10, h⟩
    · rw [if_neg h10] at h
      rw [List.mem_append] at h
      cases h with
      | inl h => exact ih _ _ h
      | inr h =>
        simp at h
        exact ⟨n % 10, Nat.mod_lt _ (by omega), h⟩

theorem plainChar_digit (k : Nat) (h : k < 10) : plainChar (digitChar k) = true := by
  interval_cases k <;> decide

theorem natToDecChars_plain (n : Nat) (c : Char) (h : c ∈ natToDecChars n) :
    plainChar c = true := by
  obtain ⟨k, hk, rfl⟩ := natToDecCore_mem _ _ _ h
  exact plainChar_digit k hk

theorem natToDecChars_ne_nil (n : Nat) : natToDecChars n ≠ [] := by
  unfold natToDecChars
  rw [natToDecCore]
  by_cases h10 : n < 10 <;> simp [h10]

theorem hasSubPair_eq_false_of_not_mem (l : List Char) (h : '[' ∉ l) :
    hasSubPair l = false := by
  induction l with
  | nil => rfl
  | cons c cs ih =>
    have hc : c ≠ '[' := fun hh => h (hh ▸ List.mem_cons_self c cs)
    have hcs : '[' ∉ cs := fun hh => h (List.mem_cons_of_mem c hh)
    cases cs with
    | nil => rfl
    | cons b bs => simp [hasSubPair, hc, ih hcs]

theorem hasSubPair_cons_cons (x y : Char) (rest : List Char) :
    hasSubPair (x :: y :: rest) =
      (decide (x = '[' ∧ y = ']') || hasSubPair (y :: rest)) := rfl

theorem hasSubPair_append (a b : List Char) :
    hasSubPair (a ++ b) =
      (hasSubPair a || hasSubPair b ||
        (decide (a.getLast? = some '[') && decide (b.head? = some ']'))) := by
  induction a with
  | nil => simp [hasSubPair]
  | cons c as ih =>
    cases as with
    | nil =>
      cases b with
      | nil => simp [hasSubPair]
      | cons d bs =>
        rw [show ([ c ] ++ (d :: bs)) = c :: d :: bs from rfl]
        rw [hasSubPair_cons_cons]
        rw [Bool.eq_iff_iff]
        simp [hasSubPair, List.getLast?]
        tauto
    | cons c' as' =>
      rw [show ((c :: c' :: as') ++ b) = c :: c' :: (as' ++ b) from rfl]
      rw [hasSubPair_cons_cons, hasSubPair_cons_cons c c' as']
      rw [show (c' :: (as' ++ b)) = (c' :: as') ++ b from rfl, ih]
      rw [List.getLast?_cons_cons]
      rw [Bool.eq_iff_iff]
      simp [Bool.or_eq_true, decide_eq_true_eq]
      tauto

end Abi

namespace Abi

theorem endDepth_append (a b : List Char) : ∀ d, endDepth d (a ++ b) = endDepth (endDepth d a) b := by
  induction a with
  | nil => intro d; rfl
  | cons c as ih =>
    intro d
    simp only [List.cons_append, endDepth]
    split_ifs <;> apply ih

theorem endDepth_shift (l : List Char) : ∀ d k : Int, endDepth (d + k) l = endDepth d l + k := by
  induction l with
  | nil => intro d k; rfl
  | cons c cs ih =>
    intro d k
    simp only [endDepth]
    split_ifs with h1 h2
    · rw [show d + k + 1 = (d + 1) + k by ring, ih]
    · rw [show d + k - 1 = (d - 1) + k by ring, ih]
    · exact ih d k

theorem noSplitChars_append (a b : List Char) : ∀ d, noSplitChars d a = true →
    noSplitChars d (a ++ b) = noSplitChars (endDepth d a) b := by
  induction a with
  | nil => intro d _; rfl
  | cons c as ih =>
    intro d h
    by_cases h1 : c = '(' ∨ c = '['
    · simp only [List.cons_append, noSplitChars, endDepth, if_pos h1] at h ⊢
      exact ih _ h
    · by_cases h2 : c = ')' ∨ c = ']'
      · simp only [List.cons_append, noSplitChars, endDepth, if_neg h1, if_pos h2] at h ⊢
        rw [Bool.and_eq_true] at h
        rw [h.1, Bool.true_and]
        exact ih _ h.2
      · by_cases h3 : c = ','
        · simp only [List.cons_append, noSplitChars, endDepth, if_neg h1, if_neg h2,
            if_pos h3] at h ⊢
          rw [Bool.and_eq_true] at h
          rw [h.1, Bool.true_and]
          exact ih _ h.2
        · by_cases h4 : c = ' '
          · simp only [noSplitChars, if_neg h1, if_neg h2, if_neg h3, if_pos h4] at h
            exact absurd h (by simp)
          · simp only [List.cons_append, noSplitChars, endDepth, if_neg h1, if_neg h2,
              if_neg h3, if_neg h4] at h ⊢
            exact ih _ h

theorem noSplitChars_mono (l : List Char) : ∀ d d' : Int, 0 ≤ d → d ≤ d' →
    noSplitChars d l = true → noSplitChars d' l = true := by
  induction l with
  | nil => intro d d' _ _ _; rfl
  | cons c cs ih =>
    intro d d' h0 hle h
    by_cases h1 : c = '(' ∨ c = '['
    · simp only [noSplitChars, if_pos h1] at h ⊢
      exact ih _ _ (by omega) (by omega) h
    · by_cases h2 : c = ')' ∨ c = ']'
      · simp only [noSplitChars, if_neg h1, if_pos h2] at h ⊢
        rw [Bool.and_eq_true] at h ⊢
        obtain ⟨ha, hb⟩ := h
        rw [decide_eq_true_eq] at ha
        exact ⟨by rw [decide_eq_true_eq]; omega, ih _ _ (by omega) (by omega) hb⟩
      · by_cases h3 : c = ','
        · simp only [noSplitChars, if_neg h1, if_neg h2, if_pos h3] at h ⊢
          rw [Bool.and_eq_true] at h ⊢
          obtain ⟨ha, hb⟩ := h
          rw [decide_eq_true_eq] at ha
          exact ⟨by rw [decide_eq_true_eq]; omega, ih _ _ (by omega) (by omega) hb⟩
        · by_cases h4 : c = ' '
          · simp only [noSplitChars, if_neg h1, if_neg h2, if_neg h3, if_pos h4] at h
            exact absurd h (by simp)
          · simp only [noSplitChars, if_neg h1, if_neg h2, if_neg h3, if_neg h4] at h ⊢
            exact ih _ _ h0 hle h

theorem plainChar_facts (c : Char) (h : plainChar c = true) :
    c ≠ '(' ∧ c ≠ ')' ∧ c ≠ '[' ∧ c ≠ ']' ∧ c ≠ ',' ∧ c ≠ ' ' ∧ jsIsWs c = false := by
  unfold plainChar at h
  rw [decide_eq_true_eq] at h
  obtain ⟨h1, h2, h3, h4, h5, h6⟩ := h
  rw [Bool.not_eq_true'] at h6
  refine ⟨h1, h2, h3, h4, h5, ?_, h6⟩
  intro he
  subst he
  simp [jsIsWs] at h6

theorem plain_noSplit (l : List Char) (hp : ∀ c ∈ l, plainChar c = true) :
    ∀ d, noSplitChars d l = true ∧ endDepth d l = d := by
  induction l with
  | nil => intro d; exact ⟨rfl, rfl⟩
  | cons c cs ih =>
    intro d
    obtain ⟨h1, h2, h3, h4, h5, h6, _⟩ := plainChar_facts c (hp c (List.mem_cons_self c cs))
    have hcs : ∀ x ∈ cs, plainChar x = true := fun x hx => hp x (List.mem_cons_of_mem c hx)
    have hopen : ¬(c = '(' ∨ c = '[') := by tauto
    have hclose : ¬(c = ')' ∨ c = ']') := by tauto
    constructor
    · simp only [noSplitChars]
      rw [if_neg hopen, if_neg hclose, if_neg h5, if_neg h6]
      exact (ih hcs d).1
    · simp only [endDepth]
      rw [if_neg hopen, if_neg hclose]
      exact (ih hcs d).2

theorem plain_noWs (l : List Char) (hp : ∀ c ∈ l, plainChar c = true) : noWsL l = true := by
  rw [noWsL, List.all_eq_true]
  intro c hc
  rw [Bool.not_eq_true']
  exact (plainChar_facts c (hp c hc)).2.2.2.2.2.2

theorem plain_not_lbrack (l : List Char) (hp : ∀ c ∈ l, plainChar c = true) : '[' ∉ l := by
  intro hmem
  have := (plainChar_facts _ (hp _ hmem)).2.2.1
  exact this rfl

end Abi

namespace Abi

theorem joinCommaL_cons_cons (x y : List Char) (rest : List (List Char)) :
    joinCommaL (x :: y :: rest) = x ++ ',' :: joinCommaL (y :: rest) := by
  rw [joinCommaL]
  simp

theorem join_ne_nil (xs : List (List Char)) (h : ∀ x ∈ xs, x ≠ []) (hne : xs ≠ []) :
    joinCommaL xs ≠ [] := by
  cases xs with
  | nil => exact absurd rfl hne
  | cons x rest =>
    cases rest with
    | nil => exact h x (List.mem_cons_self x [])
    | cons y rest' =>
      rw [joinCommaL_cons_cons]
      intro he
      exact h x (List.mem_cons_self x _) (List.append_eq_nil.mp he).1

theorem join_props (xs : List (List Char))
    (h : ∀ x ∈ xs, x ≠ [] ∧ noSplitChars 0 x = true ∧ endDepth 0 x = 0) :
    noSplitChars 1 (joinCommaL xs) = true ∧ endDepth 1 (joinCommaL xs) = 1 := by
  induction xs with
  | nil => exact ⟨rfl, rfl⟩
  | cons x rest ih =>
    obtain ⟨hne, hns, hend⟩ := h x (List.mem_cons_self x rest)
    have hns1 : noSplitChars 1 x = true := noSplitChars_mono x 0 1 (by omega) (by omega) hns
    have hend1 : endDepth 1 x = 1 := by
      have h2 := endDepth_shift x 0 1
      rw [hend] at h2
      simpa using h2
    cases rest with
    | nil => exact ⟨hns1, hend1⟩
    | cons y rest' =>
      have hrest : ∀ z ∈ y :: rest', z ≠ [] ∧ noSplitChars 0 z = true ∧ endDepth 0 z = 0 :=
        fun z hz => h z (List.mem_cons_of_mem x hz)
      obtain ⟨ihns, ihend⟩ := ih hrest
      rw [joinCommaL_cons_cons]
      constructor
      · rw [noSplitChars_append x _ 1 hns1, hend1]
        show noSplitChars 1 (',' :: joinCommaL (y :: rest')) = true
        rw [noSplitChars]
        rw [if_neg (by decide : ¬(',' = '(' ∨ ',' = '[')),
          if_neg (by decide : ¬(',' = ')' ∨ ',' = ']')),
          if_pos (rfl : ',' = ',')]
        rw [show decide ((1 : Int) ≠ 0) = true from by decide, Bool.true_and]
        exact ihns
      · rw [endDepth_append, hend1]
        show endDepth 1 (',' :: joinCommaL (y :: rest')) = 1
        rw [endDepth]
        rw [if_neg (by decide : ¬(',' = '(' ∨ ',' = '[')),
          if_neg (by decide : ¬(',' = ')' ∨ ',' = ']'))]
        exact ihend

theorem join_noWs (xs : List (List Char)) (h : ∀ x ∈ xs, noWsL x = true) :
    noWsL (joinCommaL xs) = true := by
  induction xs with
  | nil => rfl
  | cons x rest ih =>
    have hx := h x (List.mem_cons_self x rest)
    cases rest with
    | nil => exact hx
    | cons y rest' =>
      have hrest := ih (fun z hz => h z (List.mem_cons_of_mem x hz))
      rw [joinCommaL_cons_cons]
      rw [noWsL] at hx hrest ⊢
      rw [List.all_append, hx, Bool.true_and, List.all_cons]
      rw [show (!jsIsWs ',') = true from by decide, Bool.true_and]
      exact hrest

theorem join_getLast_ne (xs : List (List Char))
    (h : ∀ x ∈ xs, x ≠ [] ∧ x.getLast? ≠ some '[') (hne : xs ≠ []) :
    (joinCommaL xs).getLast? ≠ some '[' := by
  induction xs with
  | nil => exact absurd rfl hne
  | cons x rest ih =>
    cases rest with
    | nil => exact (h x (List.mem_cons_self x [])).2
    | cons y rest' =>
      have hrest : ∀ z ∈ y :: rest', z ≠ [] ∧ z.getLast? ≠ some '[' :=
        fun z hz => h z (List.mem_cons_of_mem x hz)
      have hjne : joinCommaL (y :: rest') ≠ [] :=
        join_ne_nil _ (fun z hz => (hrest z hz).1) (by simp)
      rw [joinCommaL_cons_cons, List.getLast?_append]
      have hcons : (',' :: joinCommaL (y :: rest')).getLast? = (joinCommaL (y :: rest')).getLast? := by
        cases hj : joinCommaL (y :: rest') with
        | nil => exact absurd hj hjne
        | cons a as => rw [List.getLast?_cons_cons]
      rw [hcons]
      cases hj : (joinCommaL (y :: rest')).getLast? with
      | none =>
        rw [hj] at hcons
        exact absurd (List.getLast?_eq_none_iff.mp hj) hjne
      | some a =>
        have ha : a ≠ '[' := by
          intro he
          subst he
          exact ih hrest (by simp) hj
        simp [Option.or, ha]

theorem join_length_le (xs : List (List Char)) (x : List Char) (hx : x ∈ xs) :
    x.length ≤ (joinCommaL xs).length := by
  induction xs with
  | nil => simp at hx
  | cons y rest ih =>
    cases rest with
    | nil =>
      rw [List.mem_singleton] at hx
      subst hx
      exact Nat.le_refl _
    | cons z rest' =>
      rw [joinCommaL_cons_cons, List.length_append]
      rcases List.mem_cons.mp hx with h1 | h2
      · subst h1
        omega
      · have := ih h2
        rw [List.length_cons] at *
        omega

end Abi

namespace Abi

theorem plain_bundle (l : List Char) (hne : l ≠ []) (hp : ∀ c ∈ l, plainChar c = true) :
    l ≠ [] ∧ noWsL l = true ∧ noSplitChars 0 l = true ∧ endDepth 0 l = 0 ∧
      l.getLast? ≠ some '[' := by
  refine ⟨hne, plain_noWs l hp, (plain_noSplit l hp 0).1, (plain_noSplit l hp 0).2, ?_⟩
  intro h
  exact absurd rfl (plainChar_facts _ (hp _ (List.mem_of_getLast?_eq_some h))).2.2.1

theorem prefix_digits_plain (p : List Char) (hp : ∀ c ∈ p, plainChar c = true) (n : Nat) :
    ∀ c ∈ p ++ natToDecChars n, plainChar c = true := by
  intro c hc
  rcases List.mem_append.mp hc with h | h
  · exact hp c h
  · exact natToDecChars_plain n c h

theorem noSplit_bracket_digits (ds : List Char) (hds : ∀ c ∈ ds, plainChar c = true) :
    noSplitChars 0 ('[' :: (ds ++ [ ']' ])) = true ∧
      endDepth 0 ('[' :: (ds ++ [ ']' ])) = 0 := by
  have hopen : (('[' : Char) = '(' ∨ ('[' : Char) = '[') := Or.inr rfl
  constructor
  · rw [noSplitChars, if_pos hopen]
    rw [show (0 : Int) + 1 = 1 from rfl]
    rw [noSplitChars_append ds _ 1 ((plain_noSplit ds hds 1).1), (plain_noSplit ds hds 1).2]
    decide
  · rw [endDepth, if_pos hopen]
    rw [show (0 : Int) + 1 = 1 from rfl]
    rw [endDepth_append, (plain_noSplit ds hds 1).2]
    decide

theorem noWs_bracket_digits (ds : List Char) (hds : ∀ c ∈ ds, plainChar c = true) :
    noWsL ('[' :: (ds ++ [ ']' ])) = true := by
  have hds2 := plain_noWs ds hds
  rw [noWsL] at hds2
  rw [noWsL, List.all_cons, List.all_append, hds2]
  decide

end Abi

namespace Abi

theorem renderLList_cons_cons (t u : ABIType) (rest : List ABIType) :
    renderLList (t :: u :: rest) = renderL t ++ ',' :: renderLList (u :: rest) := by
  rw [renderLList]
  simp

theorem renderLList_eq_join (fs : List ABIType) :
    renderLList fs = joinCommaL (fs.map renderL) := by
  induction fs with
  | nil => rfl
  | cons t rest ih =>
    cases rest with
    | nil => rfl
    | cons u rest' =>
      rw [renderLList_cons_cons, List.map_cons, List.map_cons, joinCommaL_cons_cons,
        ← List.map_cons, ih]

theorem renderL_tuple (fs : List ABIType) :
    renderL (.tupleT fs) = ("tuple(").data ++ (renderLList fs ++ [ ')' ]) := by
  rw [renderL, List.append_assoc]

mutual

theorem renderProps : ∀ (T : ABIType),
    renderL T ≠ [] ∧ noWsL (renderL T) = true ∧ noSplitChars 0 (renderL T) = true ∧
    endDepth 0 (renderL T) = 0 ∧ (renderL T).getLast? ≠ some '['
  | .uintT bits => by
    rw [show renderL (.uintT bits) = ("uint").data ++ natToDecChars bits from by rw [renderL]]
    exact plain_bundle _ (by simp) (prefix_digits_plain _ (by decide) bits)
  | .intT bits => by
    rw [show renderL (.intT bits) = ("int").data ++ natToDecChars bits from by rw [renderL]]
    exact plain_bundle _ (by simp) (prefix_digits_plain _ (by decide) bits)
  | .boolT => by
    rw [show renderL .boolT = ("bool").data from by rw [renderL]]
    exact plain_bundle _ (by decide) (by decide)
  | .addressT => by
    rw [show renderL .addressT = ("address").data from by rw [renderL]]
    exact plain_bundle _ (by decide) (by decide)
  | .fixedBytesT n => by
    rw [show renderL (.fixedBytesT n) = ("bytes").data ++ natToDecChars n from by rw [renderL]]
    exact plain_bundle _ (by simp) (prefix_digits_plain _ (by decide) n)
  | .bytesT => by
    rw [show renderL .bytesT = ("bytes").data from by rw [renderL]]
    exact plain_bundle _ (by decide) (by decide)
  | .stringT => by
    rw [show renderL .stringT = ("string").data from by rw [renderL]]
    exact plain_bundle _ (by decide) (by decide)
  | .fixedArrayT e n => by
    obtain ⟨hne, hws, hns, hed, _⟩ := renderProps e
    have hds : ∀ c ∈ natToDecChars n, plainChar c = true := fun c hc => natToDecChars_plain n c hc
    rw [show renderL (.fixedArrayT e n) = renderL e ++ '[' :: (natToDecChars n ++ [ ']' ])
      from by rw [renderL]]
    refine ⟨by simp [hne], ?_, ?_, ?_, ?_⟩
    · have h1 := noWs_bracket_digits (natToDecChars n) hds
      rw [noWsL] at hws h1 ⊢
      rw [List.all_append, hws, h1]
      rfl
    · rw [noSplitChars_append _ _ 0 hns, hed]
      exact (noSplit_bracket_digits _ hds).1
    · rw [endDepth_append, hed]
      exact (noSplit_bracket_digits _ hds).2
    · rw [show renderL e ++ '[' :: (natToDecChars n ++ [ ']' ]) =
        (renderL e ++ '[' :: natToDecChars n) ++ [ ']' ] from by simp]
      rw [List.getLast?_concat]
      decide
  | .dynArrayT e => by
    obtain ⟨hne, hws, hns, hed, _⟩ := renderProps e
    rw [show renderL (.dynArrayT e) = renderL e ++ [ '[' , ']' ] from by rw [renderL]]
    refine ⟨by simp [hne], ?_, ?_, ?_, ?_⟩
    · rw [noWsL] at hws ⊢
      rw [List.all_append, hws]
      rfl
    · rw [noSplitChars_append _ _ 0 hns, hed]
      decide
    · rw [endDepth_append, hed]
      decide
    · rw [show renderL e ++ [ '[' , ']' ] = (renderL e ++ [ '[' ]) ++ [ ']' ] from by simp]
      rw [List.getLast?_concat]
      decide
  | .tupleT fs => by
    have hlist := fun x hx => renderPropsList fs x hx
    have hmap : ∀ y ∈ fs.map renderL,
        y ≠ [] ∧ noWsL y = true ∧ noSplitChars 0 y = true ∧ endDepth 0 y = 0 ∧
          y.getLast? ≠ some '[' := by
      intro y hy
      obtain ⟨t, ht, rfl⟩ := List.mem_map.mp hy
      exact hlist t ht
    have hjprops := join_props (fs.map renderL) (fun x hx =>
      ⟨(hmap x hx).1, (hmap x hx).2.2.1, (hmap x hx).2.2.2.1⟩)
    have hjws := join_noWs (fs.map renderL) (fun x hx => (hmap x hx).2.1)
    rw [renderL_tuple, renderLList_eq_join]
    refine ⟨by simp, ?_, ?_, ?_, ?_⟩
    · have hj := hjws
      rw [noWsL] at hj ⊢
      rw [List.all_append, List.all_append, hj]
      rw [show (("tuple(").data.all fun c => !jsIsWs c) = true from by decide]
      rfl
    · rw [noSplitChars_append _ _ 0 (by decide), show endDepth 0 (("tuple(").data) = 1 from by decide]
      rw [noSplitChars_append _ _ 1 hjprops.1, hjprops.2]
      decide
    · rw [endDepth_append, show endDepth 0 (("tuple(").data) = 1 from by decide]
      rw [endDepth_append, hjprops.2]
      decide
    · rw [show ("tuple(").data ++ (joinCommaL (fs.map renderL) ++ [ ')' ]) =
        (("tuple(").data ++ joinCommaL (fs.map renderL)) ++ [ ')' ] from by simp]
      rw [List.getLast?_concat]
      decide

theorem renderPropsList : ∀ (fs : List ABIType), ∀ x ∈ fs,
    renderL x ≠ [] ∧ noWsL (renderL x) = true ∧ noSplitChars 0 (renderL x) = true ∧
    endDepth 0 (renderL x) = 0 ∧ (renderL x).getLast? ≠ some '['
  | [], x, hx => absurd hx (by simp)
  | t :: rest, x, hx => by
    rcases List.mem_cons.mp hx with h1 | h2
    · rw [h1]
      exact renderProps t
    · exact renderPropsList rest x h2

end

end Abi

namespace Abi

theorem hsp_bracket_digits (ds : List Char) (hds : ∀ c ∈ ds, plainChar c = true)
    (hne : ds ≠ []) : hasSubPair ('[' :: (ds ++ [ ']' ])) = false := by
  cases ds with
  | nil => exact absurd rfl hne
  | cons d ds' =>
    rw [show ('[' :: ((d :: ds') ++ [ ']' ])) = '[' :: d :: (ds' ++ [ ']' ]) from rfl]
    rw [hasSubPair_cons_cons]
    have hd := plainChar_facts d (hds d (List.mem_cons_self d ds'))
    rw [decide_eq_false (fun hall => hd.2.2.2.1 hall.2)]
    rw [Bool.false_or]
    apply hasSubPair_eq_false_of_not_mem
    intro hmem
    rcases List.mem_cons.mp hmem with h1 | h2
    · exact (plainChar_facts d (hds d (List.mem_cons_self d ds'))).2.2.1 h1.symm
    · rcases List.mem_append.mp h2 with h3 | h4
      · exact (plainChar_facts _ (hds _ (List.mem_cons_of_mem d h3))).2.2.1 rfl
      · simp at h4

theorem hsp_join (xs : List (List Char))
    (h : ∀ x ∈ xs, x ≠ [] ∧ x.getLast? ≠ some '[') :
    hasSubPair (joinCommaL xs) = xs.any hasSubPair := by
  induction xs with
  | nil => rfl
  | cons x rest ih =>
    cases rest with
    | nil => simp [joinCommaL]
    | cons y rest' =>
      have hrest : ∀ z ∈ y :: rest', z ≠ [] ∧ z.getLast? ≠ some '[' :=
        fun z hz => h z (List.mem_cons_of_mem x hz)
      have hjne : joinCommaL (y :: rest') ≠ [] :=
        join_ne_nil _ (fun z hz => (hrest z hz).1) (by simp)
      rw [joinCommaL_cons_cons, hasSubPair_append]
      rw [decide_eq_false (h x (List.mem_cons_self x _)).2, Bool.false_and, Bool.or_false]
      have hcomma : hasSubPair (',' :: joinCommaL (y :: rest')) =
          hasSubPair (joinCommaL (y :: rest')) := by
        cases hj : joinCommaL (y :: rest') with
        | nil => exact absurd hj hjne
        | cons a as =>
          rw [hasSubPair_cons_cons]
          rw [decide_eq_false (fun hall => by exact absurd hall.1 (by decide))]
          rw [Bool.false_or]
      rw [hcomma, ih hrest, List.any_cons, List.any_cons, List.any_cons]

end Abi

namespace Abi

mutual

theorem hsp_render : ∀ (T : ABIType), hasSubPair (renderL T) = hasDynArr T
  | .uintT bits => by
    rw [show renderL (.uintT bits) = ("uint").data ++ natToDecChars bits from by rw [renderL]]
    rw [hasSubPair_eq_false_of_not_mem _
      (plain_not_lbrack _ (prefix_digits_plain _ (by decide) bits))]
    simp [hasDynArr]
  | .intT bits => by
    rw [show renderL (.intT bits) = ("int").data ++ natToDecChars bits from by rw [renderL]]
    rw [hasSubPair_eq_false_of_not_mem _
      (plain_not_lbrack _ (prefix_digits_plain _ (by decide) bits))]
    simp [hasDynArr]
  | .boolT => by
    rw [show renderL .boolT = ("bool").data from by rw [renderL]]
    rw [show hasSubPair (("bool").data) = false from by decide]
    simp [hasDynArr]
  | .addressT => by
    rw [show renderL .addressT = ("address").data from by rw [renderL]]
    rw [show hasSubPair (("address").data) = false from by decide]
    simp [hasDynArr]
  | .fixedBytesT n => by
    rw [show renderL (.fixedBytesT n) = ("bytes").data ++ natToDecChars n from by rw [renderL]]
    rw [hasSubPair_eq_false_of_not_mem _
      (plain_not_lbrack _ (prefix_digits_plain _ (by decide) n))]
    simp [hasDynArr]
  | .bytesT => by
    rw [show renderL .bytesT = ("bytes").data from by rw [renderL]]
    rw [show hasSubPair (("bytes").data) = false from by decide]
    simp [hasDynArr]
  | .stringT => by
    rw [show renderL .stringT = ("string").data from by rw [renderL]]
    rw [show hasSubPair (("string").data) = false from by decide]
    simp [hasDynArr]
  | .fixedArrayT e n => by
    have hds : ∀ c ∈ natToDecChars n, plainChar c = true := fun c hc => natToDecChars_plain n c hc
    rw [show renderL (.fixedArrayT e n) = renderL e ++ ('[' :: (natToDecChars n ++ [ ']' ]))
      from by rw [renderL]]
    rw [hasSubPair_append]
    rw [hsp_bracket_digits _ hds (natToDecChars_ne_nil n)]
    rw [decide_eq_false (renderProps e).2.2.2.2, Bool.false_and, Bool.or_false, Bool.or_false]
    rw [hsp_render e]
    simp [hasDynArr]
  | .dynArrayT e => by
    rw [show renderL (.dynArrayT e) = renderL e ++ [ '[' , ']' ] from by rw [renderL]]
    rw [hasSubPair_append]
    rw [show hasSubPair [ '[' , ']' ] = true from by decide]
    simp [hasDynArr]
  | .tupleT fs => by
    have hmap : ∀ y ∈ fs.map renderL, y ≠ [] ∧ y.getLast? ≠ some '[' := by
      intro y hy
      obtain ⟨t, ht, rfl⟩ := List.mem_map.mp hy
      exact ⟨(renderPropsList fs t ht).1, (renderPropsList fs t ht).2.2.2.2⟩
    rw [renderL_tuple, renderLList_eq_join]
    rw [hasSubPair_append]
    rw [show hasSubPair (("tuple(").data) = false from by decide]
    rw [show decide ((("tuple(").data).getLast? = some '[') = false from by decide]
    rw [Bool.false_and, Bool.or_false, Bool.false_or]
    rw [hasSubPair_append]
    rw [show hasSubPair [ ')' ] = false from by decide]
    rw [show decide (([ ')' ] : List Char).head? = some ']') = false from by decide]
    rw [Bool.and_false, Bool.or_false, Bool.or_false]
    rw [hsp_join _ hmap]
    rw [hsp_render_list fs]
    simp [hasDynArr]

theorem hsp_render_list : ∀ (fs : List ABIType),
    (fs.map renderL).any hasSubPair = hasDynArrList fs
  | [] => rfl
  | t :: rest => by
    rw [List.map_cons, List.any_cons, hsp_render t, hsp_render_list rest]
    simp [hasDynArrList]

end

end Abi

namespace Abi

theorem dropWhile_eq_self_of_none (p : Char → Bool) (l : List Char)
    (h : ∀ c ∈ l, p c = false) : l.dropWhile p = l := by
  cases l with
  | nil => rfl
  | cons c cs =>
    rw [List.dropWhile_cons, if_neg]
    rw [h c (List.mem_cons_self c cs)]
    simp

theorem jsTrim_eq_self (l : List Char) (h : ∀ c ∈ l, jsIsWs c = false) : jsTrim l = l := by
  unfold jsTrim
  rw [dropWhile_eq_self_of_none _ _ h]
  rw [dropWhile_eq_self_of_none _ _ (fun c hc => h c (by rwa [List.mem_reverse] at hc))]
  exact List.reverse_reverse l

theorem splitWsGo_no_ws (l : List Char) (h : ∀ c ∈ l, jsIsWs c = false) :
    ∀ cur, splitWsGo l cur =
      if cur.reverse ++ l = [] then [] else [cur.reverse ++ l] := by
  induction l with
  | nil =>
    intro cur
    simp only [splitWsGo, List.append_nil]
    by_cases hc : cur = []
    · subst hc
      simp
    · rw [if_neg (by simpa using hc), if_neg (by simp [hc])]
  | cons c cs ih =>
    intro cur
    have hc := h c (List.mem_cons_self c cs)
    simp only [splitWsGo, hc]
    rw [ih (fun x hx => h x (List.mem_cons_of_mem c hx)) (c :: cur)]
    rw [show (c :: cur).reverse ++ cs = cur.reverse ++ (c :: cs) from by simp]
    simp

theorem splitWs_single (l : List Char) (h : ∀ c ∈ l, jsIsWs c = false) (hne : l ≠ []) :
    splitWs l = [l] := by
  unfold splitWs
  rw [splitWsGo_no_ws l h []]
  simp [hne]

theorem ptcFinalize_clean (x : List Char) (comps : List Comp)
    (h : ∀ c ∈ x, jsIsWs c = false) (hne : x ≠ []) :
    ptcFinalize x comps =
      comps ++ [⟨String.mk x, String.mk (("field").data ++ natToDecChars comps.length)⟩] := by
  unfold ptcFinalize
  rw [jsTrim_eq_self x h]
  rw [if_neg (by simpa using hne)]
  rw [splitWs_single x h hne]
  rfl

theorem ptcGo_comma (cs : List Char) (cur : List Char) (inT : Bool) (comps : List Comp) :
    ptcGo (',' :: cs) 0 cur inT comps = ptcGo cs 0 [] inT (ptcFinalize cur comps) := by
  rw [ptcGo]
  rw [if_neg (by decide : ¬((',' : Char) = '(' ∨ (',' : Char) = '['))]
  rw [if_neg (by decide : ¬((',' : Char) = ')' ∨ (',' : Char) = ']'))]
  rw [if_pos ⟨rfl, rfl⟩]

theorem ptcGo_chunk (x : List Char) : ∀ (cs : List Char) (d : Int) (cur : List Char)
    (inT : Bool) (comps : List Comp), noSplitChars d x = true →
    ptcGo (x ++ cs) d cur inT comps = ptcGo cs (endDepth d x) (cur ++ x) inT comps := by
  induction x with
  | nil =>
    intro cs d cur inT comps _
    simp [endDepth]
  | cons c xs ih =>
    intro cs d cur inT comps h
    by_cases h1 : c = '(' ∨ c = '['
    · simp only [List.cons_append, ptcGo, noSplitChars, endDepth, if_pos h1] at h ⊢
      rw [show List.append xs cs = xs ++ cs from rfl]
      rw [ih cs _ _ inT comps h]
      rw [show (cur ++ [c]) ++ xs = cur ++ (c :: xs) from by simp]
    · by_cases h2 : c = ')' ∨ c = ']'
      · simp only [List.cons_append, ptcGo, noSplitChars, endDepth, if_neg h1, if_pos h2] at h ⊢
        rw [Bool.and_eq_true] at h
        rw [show List.append xs cs = xs ++ cs from rfl]
        rw [ih cs _ _ inT comps h.2]
        rw [show (cur ++ [c]) ++ xs = cur ++ (c :: xs) from by simp]
      · by_cases h3 : c = ','
        · simp only [noSplitChars, if_neg h1, if_neg h2, if_pos h3] at h
          rw [Bool.and_eq_true] at h
          have hd : d ≠ 0 := by
            have := h.1
            rw [decide_eq_true_eq] at this
            exact this
          simp only [List.cons_append, ptcGo, endDepth, if_neg h1, if_neg h2,
            if_neg (fun hall : c = ',' ∧ d = 0 => hd hall.2),
            if_neg (fun hall : c = ' ' ∧ d = 0 ∧ (jsTrim cur).isEmpty = false ∧ inT = true =>
              (by rw [h3] at hall; exact absurd hall.1 (by decide) : False))]
          rw [show List.append xs cs = xs ++ cs from rfl]
          rw [ih cs _ _ inT comps h.2]
          rw [show (cur ++ [c]) ++ xs = cur ++ (c :: xs) from by simp]
        · by_cases h4 : c = ' '
          · simp only [noSplitChars, if_neg h1, if_neg h2, if_neg h3, if_pos h4] at h
            exact absurd h (by simp)
          · simp only [List.cons_append, ptcGo, noSplitChars, endDepth, if_neg h1, if_neg h2,
              if_neg h3, if_neg (fun hall : c = ',' ∧ d = 0 => h3 hall.1),
              if_neg (fun hall : c = ' ' ∧ d = 0 ∧ (jsTrim cur).isEmpty = false ∧ inT = true =>
                h4 hall.1), if_neg h4] at h ⊢
            rw [show List.append xs cs = xs ++ cs from rfl]
            rw [ih cs _ _ inT comps h]
            rw [show (cur ++ [c]) ++ xs = cur ++ (c :: xs) from by simp]

end Abi

namespace Abi

theorem noWsL_mem (x : List Char) (hx : noWsL x = true) : ∀ c ∈ x, jsIsWs c = false := by
  intro c hc
  rw [noWsL, List.all_eq_true] at hx
  have := hx c hc
  rwa [Bool.not_eq_true'] at this

theorem ptcGo_join (xs : List (List Char)) : ∀ (comps : List Comp) (inT : Bool),
    (∀ x ∈ xs, x ≠ [] ∧ noWsL x = true ∧ noSplitChars 0 x = true ∧ endDepth 0 x = 0) →
    ptcGo (joinCommaL xs) 0 [] inT comps = comps ++ expComps comps.length xs := by
  induction xs with
  | nil =>
    intro comps inT _
    simp [joinCommaL, ptcGo, ptcFinalize, expComps, jsTrim]
  | cons x rest ih =>
    intro comps inT h
    obtain ⟨hxne, hxws, hxns, hxed⟩ := h x (List.mem_cons_self x rest)
    have hws' := noWsL_mem x hxws
    cases rest with
    | nil =>
      rw [show joinCommaL [x] = x ++ [] from by simp [joinCommaL]]
      rw [ptcGo_chunk x [] 0 [] inT comps hxns, hxed, List.nil_append]
      rw [show ptcGo ([] : List Char) 0 x inT comps = ptcFinalize x comps from by rw [ptcGo]]
      rw [ptcFinalize_clean x comps hws' hxne]
      rw [show expComps comps.length [x] =
        [⟨String.mk x, String.mk (("field").data ++ natToDecChars comps.length)⟩] from by
          rw [expComps, expComps]]
    | cons y rest' =>
      rw [joinCommaL_cons_cons]
      rw [ptcGo_chunk x _ 0 [] inT comps hxns, hxed, List.nil_append]
      rw [ptcGo_comma]
      rw [ptcFinalize_clean x comps hws' hxne]
      rw [ih _ inT (fun z hz => h z (List.mem_cons_of_mem _ hz))]
      conv_rhs => rw [expComps, expComps]
      simp
      rw [expComps]
      rfl

theorem parseTupleComponents_join (xs : List (List Char))
    (h : ∀ x ∈ xs, x ≠ [] ∧ noWsL x = true ∧ noSplitChars 0 x = true ∧ endDepth 0 x = 0) :
    parseTupleComponents (String.mk (joinCommaL xs)) = expComps 0 xs := by
  unfold parseTupleComponents
  rw [show (String.mk (joinCommaL xs)).data = joinCommaL xs from rfl]
  rw [ptcGo_join xs [] true h]
  rfl

theorem expComps_any (g : String → Bool) : ∀ (k : Nat) (xs : List (List Char)),
    (expComps k xs).any (fun c => g c.type) = xs.any (fun x => g (String.mk x)) := by
  intro k xs
  induction xs generalizing k with
  | nil => rfl
  | cons x rest ih => rw [expComps, List.any_cons, List.any_cons, ih]

theorem getLast?_cons_of_some (c : Char) (l : List Char) (x : Char)
    (h : l.getLast? = some x) : (c :: l).getLast? = some x := by
  cases l with
  | nil => exact Option.noConfusion h
  | cons d ds => rw [List.getLast?_cons_cons]; exact h

theorem matchTupleParen_shape (rest : List Char) :
    matchTupleParen (String.mk (("tuple(").data ++ rest)) =
      (match rest.getLast? with
       | some ')' => if rest.dropLast.isEmpty then none else some (String.mk rest.dropLast)
       | _ => none) := rfl

theorem matchTupleParen_none_of_last (s : String) (h : s.data.getLast? ≠ some ')') :
    matchTupleParen s = none := by
  unfold matchTupleParen
  split
  · rename_i rest heq
    split
    · rename_i hlast
      exfalso
      apply h
      rw [heq]
      exact getLast?_cons_of_some _ _ _ (getLast?_cons_of_some _ _ _
        (getLast?_cons_of_some _ _ _ (getLast?_cons_of_some _ _ _
          (getLast?_cons_of_some _ _ _ (getLast?_cons_of_some _ _ _ hlast)))))
    · rfl
  · rfl

mutual

theorem hda_imp : ∀ (T : ABIType), hasDynArr T = true → dynAmended T = true
  | .uintT b, h => by simp [hasDynArr] at h
  | .intT b, h => by simp [hasDynArr] at h
  | .boolT, h => by simp [hasDynArr] at h
  | .addressT, h => by simp [hasDynArr] at h
  | .fixedBytesT n, h => by simp [hasDynArr] at h
  | .bytesT, h => by simp [hasDynArr] at h
  | .stringT, h => by simp [hasDynArr] at h
  | .fixedArrayT e n, h => by
    simp [hasDynArr] at h
    simp [dynAmended, h]
  | .dynArrayT e, _ => by simp [dynAmended]
  | .tupleT fs, h => by
    simp only [hasDynArr] at h
    simp only [dynAmended]
    exact hda_imp_list fs h

theorem hda_imp_list : ∀ (fs : List ABIType), hasDynArrList fs = true → dynAmendedList fs = true
  | [], h => by simp [hasDynArrList] at h
  | t :: rest, h => by
    simp only [hasDynArrList, Bool.or_eq_true] at h
    simp only [dynAmendedList, Bool.or_eq_true]
    cases h with
    | inl h => exact Or.inl (hda_imp t h)
    | inr h => exact Or.inr (hda_imp_list rest h)

end

end Abi

namespace Abi

theorem isDynF_false_plain (f : Nat) (s : String)
    (hne : ¬(s = ("string") ∨ s = ("bytes"))) (hnsp : hasSubPair s.data = false)
    (hnt : startsWithTuple s.data = false) :
    isDynamicTypeF (f + 1) s = false := by
  simp only [isDynamicTypeF]
  rw [if_neg hne, hnsp, if_neg (by simp), hnt, if_neg (by simp)]

theorem isDynF_true_pair (f : Nat) (s : String)
    (hne : ¬(s = ("string") ∨ s = ("bytes"))) (hsp : hasSubPair s.data = true) :
    isDynamicTypeF (f + 1) s = true := by
  simp only [isDynamicTypeF]
  rw [if_neg hne, hsp, if_pos rfl]

theorem isDynF_false_nomatch (f : Nat) (s : String)
    (hne : ¬(s = ("string") ∨ s = ("bytes"))) (hnsp : hasSubPair s.data = false)
    (hm : matchTupleParen s = none) :
    isDynamicTypeF (f + 1) s = false := by
  simp only [isDynamicTypeF]
  rw [if_neg hne, hnsp, if_neg (by simp), hm]
  cases hst : startsWithTuple s.data
  · rw [if_neg (by simp [hst])]
  · rw [if_pos rfl]

theorem isDynF_tuple_some (f : Nat) (s : String) (inner : String)
    (hne : ¬(s = ("string") ∨ s = ("bytes"))) (hnsp : hasSubPair s.data = false)
    (hst : startsWithTuple s.data = true) (hm : matchTupleParen s = some inner) :
    isDynamicTypeF (f + 1) s =
      (parseTupleComponents inner).any (fun c => isDynamicTypeF f c.type) := by
  simp only [isDynamicTypeF]
  rw [if_neg hne, hnsp, if_neg (by simp), hst, if_pos rfl, hm]

theorem startsWithTuple_false_head (c : Char) (l : List Char) (h : c ≠ 't') :
    startsWithTuple (c :: l) = false := by
  unfold startsWithTuple
  split
  · rename_i heq
    exfalso
    apply h
    have := congrArg (fun x => List.head? x) heq
    simpa using this
  · rfl

theorem ne_sb_of_data_head (s : String) (c : Char) (rest : List Char)
    (hdata : s.data = c :: rest) (h1 : c ≠ 's') (h2 : c ≠ 'b') :
    ¬(s = ("string") ∨ s = ("bytes")) := by
  intro h
  cases h with
  | inl h =>
    rw [h] at hdata
    simp at hdata
    exact h1 hdata.1.symm
  | inr h =>
    rw [h] at hdata
    simp at hdata
    exact h2 hdata.1.symm

theorem ne_sb_of_getLast_val (s : String) (c : Char) (h : s.data.getLast? = some c)
    (h1 : c ≠ 'g') (h2 : c ≠ 's') : ¬(s = ("string") ∨ s = ("bytes")) := by
  intro hor
  cases hor with
  | inl he =>
    rw [he] at h
    rw [show (("string") : String).data.getLast? = some 'g' from by decide] at h
    exact h1 (Option.some.inj h.symm)
  | inr he =>
    rw [he] at h
    rw [show (("bytes") : String).data.getLast? = some 's' from by decide] at h
    exact h2 (Option.some.inj h.symm)

end Abi

namespace Abi

theorem any_map_mk (f : Nat) (l : List ABIType) :
    ((l.map renderL).any fun x => isDynamicTypeF f (String.mk x)) =
      l.any fun u => isDynamicTypeF f (String.mk (renderL u)) := by
  induction l with
  | nil => rfl
  | cons t rest ih => rw [List.map_cons, List.any_cons, List.any_cons, ih]

mutual

theorem isDyn_render : ∀ (T : ABIType) (f : Nat), (renderL T).length ≤ f →
    isDynamicTypeF f (String.mk (renderL T)) = dynAmended T
  | T, 0, hf => by
    exfalso
    exact (renderProps T).1 (List.length_eq_zero.mp (Nat.le_zero.mp hf))
  | .uintT bits, f + 1, _ => by
    have hrend : renderL (.uintT bits) = ("uint").data ++ natToDecChars bits := by rw [renderL]
    have hne := ne_sb_of_data_head (String.mk (renderL (.uintT bits))) 'u'
      ([ 'i' , 'n' , 't' ] ++ natToDecChars bits) (by rw [show (String.mk (renderL (.uintT bits))).data = renderL (.uintT bits) from rfl, hrend, show ("uint").data = 'u' :: [ 'i' , 'n' , 't' ] from rfl, List.cons_append]) (by decide) (by decide)
    rw [isDynF_false_plain f _ hne
      (by show hasSubPair (renderL (.uintT bits)) = false; rw [hsp_render]; simp [hasDynArr])
      (by show startsWithTuple (renderL (.uintT bits)) = false
          rw [hrend]
          exact startsWithTuple_false_head 'u' _ (by decide))]
    simp [dynAmended]
  | .intT bits, f + 1, _ => by
    have hrend : renderL (.intT bits) = ("int").data ++ natToDecChars bits := by rw [renderL]
    have hne := ne_sb_of_data_head (String.mk (renderL (.intT bits))) 'i'
      ([ 'n' , 't' ] ++ natToDecChars bits) (by rw [show (String.mk (renderL (.intT bits))).data = renderL (.intT bits) from rfl, hrend, show ("int").data = 'i' :: [ 'n' , 't' ] from rfl, List.cons_append]) (by decide) (by decide)
    rw [isDynF_false_plain f _ hne
      (by show hasSubPair (renderL (.intT bits)) = false; rw [hsp_render]; simp [hasDynArr])
      (by show startsWithTuple (renderL (.intT bits)) = false
          rw [hrend]
          exact startsWithTuple_false_head 'i' _ (by decide))]
    simp [dynAmended]
  | .boolT, f + 1, _ => by
    rw [show String.mk (renderL .boolT) = ("bool") from by rw [renderL]]
    rw [isDynF_false_plain f _ (by decide) (by decide) (by decide)]
    simp [dynAmended]
  | .addressT, f + 1, _ => by
    rw [show String.mk (renderL .addressT) = ("address") from by rw [renderL]]
    rw [isDynF_false_plain f _ (by decide) (by decide) (by decide)]
    simp [dynAmended]
  | .fixedBytesT n, f + 1, _ => by
    have hrend : renderL (.fixedBytesT n) = ("bytes").data ++ natToDecChars n := by rw [renderL]
    have hne : ¬(String.mk (renderL (.fixedBytesT n)) = ("string") ∨
        String.mk (renderL (.fixedBytesT n)) = ("bytes")) := by
      rw [hrend]
      intro h
      cases h with
      | inl h =>
        have h2 : some 'b' = some 's' := congrArg (fun t => t.data.head?) h
        exact absurd h2 (by decide)
      | inr h =>
        have h2 : ("bytes").data ++ natToDecChars n = ("bytes").data := congrArg String.data h
        have h3 := congrArg List.length h2
        rw [List.length_append] at h3
        have h4 : (natToDecChars n).length = 0 := by omega
        exact natToDecChars_ne_nil n (List.length_eq_zero.mp h4)
    rw [isDynF_false_plain f _ hne
      (by show hasSubPair (renderL (.fixedBytesT n)) = false; rw [hsp_render]; simp [hasDynArr])
      (by show startsWithTuple (renderL (.fixedBytesT n)) = false
          rw [hrend]
          exact startsWithTuple_false_head 'b' _ (by decide))]
    simp [dynAmended]
  | .bytesT, f + 1, _ => by
    rw [show String.mk (renderL .bytesT) = ("bytes") from by rw [renderL]]
    simp [isDynamicTypeF, dynAmended]
  | .stringT, f + 1, _ => by
    rw [show String.mk (renderL .stringT) = ("string") from by rw [renderL]]
    simp [isDynamicTypeF, dynAmended]
  | .fixedArrayT e n, f + 1, _ => by
    have hrend : renderL (.fixedArrayT e n) = renderL e ++ ('[' :: (natToDecChars n ++ [ ']' ])) := by
      rw [renderL]
    have hlast : (String.mk (renderL (.fixedArrayT e n))).data.getLast? = some ']' := by
      show (renderL (.fixedArrayT e n)).getLast? = some ']'
      rw [hrend, show renderL e ++ ('[' :: (natToDecChars n ++ [ ']' ])) =
        (renderL e ++ '[' :: natToDecChars n) ++ [ ']' ] from by simp, List.getLast?_concat]
    have hne := ne_sb_of_getLast_val _ ']' hlast (by decide) (by decide)
    have hsp : hasSubPair (String.mk (renderL (.fixedArrayT e n))).data = hasDynArr e := by
      show hasSubPair (renderL (.fixedArrayT e n)) = hasDynArr e
      rw [hsp_render]
      simp [hasDynArr]
    cases hda : hasDynArr e with
    | true =>
      rw [isDynF_true_pair f _ hne (by rw [hsp, hda])]
      simp [dynAmended, hda]
    | false =>
      rw [isDynF_false_nomatch f _ hne (by rw [hsp, hda])
        (matchTupleParen_none_of_last _ (by rw [hlast]; decide))]
      simp [dynAmended, hda]
  | .dynArrayT e, f + 1, _ => by
    have hrend : renderL (.dynArrayT e) = renderL e ++ [ '[' , ']' ] := by rw [renderL]
    have hlast : (String.mk (renderL (.dynArrayT e))).data.getLast? = some ']' := by
      show (renderL (.dynArrayT e)).getLast? = some ']'
      rw [hrend, show renderL e ++ [ '[' , ']' ] = (renderL e ++ [ '[' ]) ++ [ ']' ] from by simp,
        List.getLast?_concat]
    have hne := ne_sb_of_getLast_val _ ']' hlast (by decide) (by decide)
    rw [isDynF_true_pair f _ hne
      (by show hasSubPair (renderL (.dynArrayT e)) = true; rw [hsp_render]; simp [hasDynArr])]
    simp [dynAmended]
  | .tupleT fs, f + 1, hf => by
    have hlast : (String.mk (renderL (.tupleT fs))).data.getLast? = some ')' := by
      show (renderL (.tupleT fs)).getLast? = some ')'
      rw [renderL_tuple, show ("tuple(").data ++ (renderLList fs ++ [ ')' ]) =
        (("tuple(").data ++ renderLList fs) ++ [ ')' ] from by simp, List.getLast?_concat]
    have hne := ne_sb_of_getLast_val _ ')' hlast (by decide) (by decide)
    have hsp : hasSubPair (String.mk (renderL (.tupleT fs))).data = hasDynArrList fs := by
      show hasSubPair (renderL (.tupleT fs)) = hasDynArrList fs
      rw [hsp_render]
      simp [hasDynArr]
    cases hda : hasDynArrList fs with
    | true =>
      rw [isDynF_true_pair f _ hne (by rw [hsp, hda])]
      have h2 := hda_imp_list fs hda
      simp [dynAmended, h2]
    | false =>
      cases fs with
      | nil =>
        have hm : matchTupleParen (String.mk (renderL (.tupleT ([] : List ABIType)))) = none := by
          rw [show String.mk (renderL (.tupleT ([] : List ABIType))) =
            String.mk (("tuple(").data ++ [ ')' ]) from by
              rw [renderL_tuple, show renderLList ([] : List ABIType) = [] from by rw [renderLList]]
              simp]
          rw [matchTupleParen_shape]
          rfl
        rw [isDynF_false_nomatch f _ hne (by rw [hsp, hda]) hm]
        simp [dynAmended, dynAmendedList]
      | cons t rest =>
        have hmapP : ∀ y ∈ (t :: rest).map renderL,
            y ≠ [] ∧ noWsL y = true ∧ noSplitChars 0 y = true ∧ endDepth 0 y = 0 := by
          intro y hy
          obtain ⟨u, hu, rfl⟩ := List.mem_map.mp hy
          have hp := renderPropsList _ u hu
          exact ⟨hp.1, hp.2.1, hp.2.2.1, hp.2.2.2.1⟩
        have hjoin_ne : joinCommaL ((t :: rest).map renderL) ≠ [] :=
          join_ne_nil _ (fun z hz => (hmapP z hz).1) (by simp)
        have hm : matchTupleParen (String.mk (renderL (.tupleT (t :: rest)))) =
            some (String.mk (joinCommaL ((t :: rest).map renderL))) := by
          rw [show String.mk (renderL (.tupleT (t :: rest))) =
            String.mk (("tuple(").data ++ (joinCommaL ((t :: rest).map renderL) ++ [ ')' ]))
            from by rw [renderL_tuple, renderLList_eq_join]]
          rw [matchTupleParen_shape]
          rw [List.getLast?_concat, List.dropLast_concat]
          rw [if_neg (by simpa using hjoin_ne)]
          rfl
        have hst : startsWithTuple (String.mk (renderL (.tupleT (t :: rest)))).data = true := by
          show startsWithTuple (renderL (.tupleT (t :: rest))) = true
          rw [renderL_tuple]
          rfl
        have hlen : ∀ u ∈ t :: rest, (renderL u).length ≤ f := by
          intro u hu
          have h1 : (renderL u).length ≤ (joinCommaL ((t :: rest).map renderL)).length :=
            join_length_le _ _ (List.mem_map_of_mem renderL hu)
          have h2 : (renderL (.tupleT (t :: rest))).length =
              ("tuple(").data.length + ((joinCommaL ((t :: rest).map renderL)).length + 1) := by
            rw [renderL_tuple, renderLList_eq_join]
            simp [List.length_append]
            omega
          rw [h2] at hf
          have h3 : ("tuple(").data.length = 6 := by decide
          omega
        rw [isDynF_tuple_some f _ _ hne (by rw [hsp, hda]) hst hm]
        rw [parseTupleComponents_join _ hmapP]
        rw [expComps_any (fun ty => isDynamicTypeF f ty) 0 _]
        rw [any_map_mk f (t :: rest), isDyn_render_list (t :: rest) f hlen]
        simp [dynAmended]

theorem isDyn_render_list : ∀ (fs : List ABIType) (f : Nat),
    (∀ t ∈ fs, (renderL t).length ≤ f) →
    fs.any (fun t => isDynamicTypeF f (String.mk (renderL t))) = dynAmendedList fs
  | [], f, _ => by simp [dynAmendedList]
  | t :: rest, f, h => by
    rw [List.any_cons, isDyn_render t f (h t (List.mem_cons_self t rest)),
      isDyn_render_list rest f (fun z hz => h z (List.mem_cons_of_mem _ hz))]
    simp [dynAmendedList]

end

end Abi

/-- C2 (counterexample): the type string `string[2]` renders a fixed-size array
whose element type `string` is dynamic, so the claim requires `isDynamicType`
to return `true` on it; the code's substring test `includes('[]')` does not
fire on `[2]`, and the function returns `false` even though it returns `true`
for the element type `string` itself. -/
theorem C2_isDynamicType_counterexample :
    Abi.renderL (Abi.ABIType.fixedArrayT Abi.ABIType.stringT 2) = ("string[2]").data ∧
    Abi.isDynamicType ("string[2]") = false ∧
    Abi.isDynamicType ("string") = true :=
  ⟨by rw [Abi.renderL, Abi.renderL]; decide, rfl, rfl⟩

/-- C2 (amended): on the canonical rendering of every structured ABI type,
`isDynamicType` returns `true` exactly for `bytes`, `string`, dynamic arrays,
fixed-size arrays whose element type contains a dynamic array, and tuples one
of whose fields satisfies the same predicate; in particular a fixed-size array
of a dynamic element that contains no dynamic array (such as `string[2]`) is
classified as static. -/
theorem C2_isDynamicType_amended (T : Abi.ABIType) :
    Abi.isDynamicType (String.mk (Abi.renderL T)) = Abi.dynAmended T :=
  Abi.isDyn_render T (String.mk (Abi.renderL T)).length (Nat.le_refl _)
